import Mathlib

/-!
Verification of the trigram Markov model in `Markov.py`.

The Python linked lists (`LinkedList` of `Node`) are embedded as Lean `List`s
whose order is head-first, matching iteration order of the source lists.
The top-level `dict` of first words is embedded as an association list in
insertion order (Python dicts preserve insertion order; new keys are appended).
Counts are `Nat` (Python ints, only ever incremented), except the scan
accumulator in `finish`, which starts from `-1` in the source and is `Int`.
Randomness (`random.choice` over the dict keys) is embedded by passing the
drawn value in explicitly; `choice` on an empty key set is the error case.
-/

namespace Markov

/-- A node of the deepest (trigram) level: word and occurrence count. -/
structure TrigramNode where
  data : String
  cnt : Nat
  deriving DecidableEq, Repr, Inhabited

/-- A node of the middle (bigram) level: word, occurrence count, and the owned
child list of trigram nodes (`bigram_node.child` in the source). -/
structure BigramNode where
  data : String
  cnt : Nat
  child : List TrigramNode
  deriving DecidableEq, Repr, Inhabited

/-- The value attached to a first word in the top-level dict: the unigram count
(`bigram_list.cnt` in the source) and the bigram list itself. -/
structure UnigramData where
  cnt : Nat
  bigrams : List BigramNode
  deriving DecidableEq, Repr, Inhabited

/-- The top-level hash table `first_words`: word -> unigram data, in insertion
order. -/
abbrev Dict := List (String × UnigramData)

/-- `TrigramModel`: the dict plus the rolling two-word window set by
`start_input` and advanced by `consume_word`. -/
structure TrigramModel where
  first_words : Dict
  prev_prev : String
  prev : String
  deriving DecidableEq, Repr, Inhabited

/-- Python dict lookup `d.get(w)`: first (unique) binding of the key. -/
def dictGet : Dict → String → Option UnigramData
  | [], _ => none
  | (k, v) :: rest, w => if k = w then some v else dictGet rest w

/-- Update the binding of `w` by `f` if present (Python in-place mutation of
the dict value), else append a new binding `f default` at the end (Python
`d[w] = ...` inserts new keys at the end). -/
def modadd (d : Dict) (w : String) (f : UnigramData → UnigramData) : Dict :=
  match d with
  | [] => [(w, f ⟨0, []⟩)]
  | (k, v) :: rest => if k = w then (k, f v) :: rest else (k, v) :: modadd rest w f

/-- `LinkedList.__getitem__` on a trigram list combined with
`_count_trigram`'s in-place `cnt += 1` on the first node holding `w`. -/
def incFirstTrigram : List TrigramNode → String → List TrigramNode
  | [], _ => []
  | n :: rest, w =>
    if n.data = w then { n with cnt := n.cnt + 1 } :: rest
    else n :: incFirstTrigram rest w

/-- `_count_trigram`: find the node for `w` and increment its count, or
prepend a fresh node (created with count 0, then incremented). -/
def count_trigram (l : List TrigramNode) (w : String) : List TrigramNode :=
  if l.any (·.data = w) then incFirstTrigram l w else ⟨w, 1⟩ :: l

/-- Increment the count of the first bigram node holding `w` and apply `f` to
its child list (the caller's subsequent use of `bigram_node.child`). -/
def incFirstBigram (f : List TrigramNode → List TrigramNode) :
    List BigramNode → String → List BigramNode
  | [], _ => []
  | n :: rest, w =>
    if n.data = w then { n with cnt := n.cnt + 1, child := f n.child } :: rest
    else n :: incFirstBigram f rest w

/-- `_count_bigram`: find or prepend the node for `w` (a fresh node gets an
empty child list), increment its count, and transform its child list by `f`
(`f` is `_count_trigram` in `consume_word` and the identity in `end_input`,
where the returned child list is not used). -/
def count_bigram_with (l : List BigramNode) (w : String)
    (f : List TrigramNode → List TrigramNode) : List BigramNode :=
  if l.any (·.data = w) then incFirstBigram f l w else ⟨w, 1, f []⟩ :: l

/-- `start_input(first_word, second_word)`. -/
def start_input (m : TrigramModel) (first second : String) : TrigramModel :=
  { m with prev_prev := first, prev := second }

/-- `consume_word(word)`: count the unigram for `prev_prev`, the bigram
`(prev_prev, prev)`, and the trigram `(prev_prev, prev, word)`, then slide the
window. -/
def consume_word (m : TrigramModel) (word : String) : TrigramModel :=
  { first_words :=
      modadd m.first_words m.prev_prev fun u =>
        { cnt := u.cnt + 1,
          bigrams := count_bigram_with u.bigrams m.prev (count_trigram · word) },
    prev_prev := m.prev,
    prev := word }

/-- `end_input()`: count the unigram for `prev_prev` and the bigram
`(prev_prev, prev)` with no trigram continuation, then count the unigram for
`prev`. The window is left unchanged. -/
def end_input (m : TrigramModel) : TrigramModel :=
  let d1 := modadd m.first_words m.prev_prev fun u =>
    { cnt := u.cnt + 1, bigrams := count_bigram_with u.bigrams m.prev id }
  { m with first_words := modadd d1 m.prev fun u => { u with cnt := u.cnt + 1 } }

/-- A fresh model (`TrigramModel.__init__`); the window fields are only read
after a `start_input`. -/
def initModel : TrigramModel := ⟨[], "", ""⟩

/-- One complete training cycle: `start_input(first, second)`, one
`consume_word` per word of `rest`, then `end_input()`. -/
structure Cycle where
  first : String
  second : String
  rest : List String
  deriving DecidableEq, Repr, Inhabited

/-- Run one complete training cycle. -/
def run_cycle (m : TrigramModel) (c : Cycle) : TrigramModel :=
  end_input (c.rest.foldl consume_word (start_input m c.first c.second))

/-- Run a sequence of complete training cycles. -/
def run_cycles (cs : List Cycle) (m : TrigramModel) : TrigramModel :=
  cs.foldl run_cycle m

/-- The scan of `_update_choice` over a list of counts: `b` is
`best_choice[0]` (an `Int`, initially `-1`), `bj` abstracts `best_choice[1]`
(the node before the best node) as the index of the best node itself (`none`
for the initial `None`), and `k` is the position of the lagging iterator.
Each step either records the current position and advances, or just
advances, exactly as `_update_choice` does. -/
def bestFrom : Int → Option Nat → Nat → List Nat → Int × Option Nat
  | b, bj, _, [] => (b, bj)
  | b, bj, k, c :: rest =>
    if b ≤ (c : Int) then bestFrom (c : Int) (some k) (k + 1) rest
    else bestFrom b bj (k + 1) rest

/-- The full scan with the source's initial state `[-1, None, lagging_iter()]`. -/
def update_choice_scan (cnts : List Nat) : Int × Option Nat :=
  bestFrom (-1) none 0 cnts

/-- `LinkedList.move_next_to_head(prev_node)` with `prev_node` abstracted as
the index of its successor: `none` (NOP), `some 0` (the best node is already
the head, NOP), or `some j` with `j > 0`, which splices node `j` to the
front. -/
def move_next_to_head (l : List α) (p : Option Nat) : List α :=
  match p with
  | none => l
  | some j =>
    if j = 0 then l
    else
      match l[j]? with
      | none => l
      | some x => x :: l.eraseIdx j

/-- The inner loop of `finish` on one trigram list: scan the counts and
promote the best node. -/
def finish_trigrams (l : List TrigramNode) : List TrigramNode :=
  move_next_to_head l (update_choice_scan (l.map (·.cnt))).2

/-- The per-node effect of the inner loop of `finish`: each bigram node's
trigram child list is reordered in place. -/
def finishChild (n : BigramNode) : BigramNode :=
  { n with child := finish_trigrams n.child }

/-- The outer loop body of `finish` on one bigram list: promote the best
trigram of every child in scan order, then promote the best bigram node. -/
def finish_bigrams (l : List BigramNode) : List BigramNode :=
  move_next_to_head (l.map finishChild) (update_choice_scan (l.map (·.cnt))).2

/-- `finish()`: reorder every bigram list and every trigram list in place. -/
def finish (m : TrigramModel) : TrigramModel :=
  { m with first_words :=
      m.first_words.map fun p => (p.1, ⟨p.2.cnt, finish_bigrams p.2.bigrams⟩) }

/-! ## Output generation -/

/-- The ways generation can raise in the source: a Python `KeyError` from
indexing `first_words` with a missing (or `None`) key, the `IndexError`
raised by `random.choice` on an empty key tuple, and the explicit
precondition-violation rejection that the spec's error-handling section asks
a reimplementation to produce (the source never produces it). -/
inductive GenError where
  | keyError (w : Option String)
  | emptyChoice
  | precondition
  deriving DecidableEq, Repr

instance {ε α : Type} [DecidableEq ε] [DecidableEq α] : DecidableEq (Except ε α) :=
  fun a b =>
  match a, b with
  | .error e, .error f =>
    if h : e = f then .isTrue (h ▸ rfl) else .isFalse fun hh => h (Except.error.inj hh)
  | .ok x, .ok y =>
    if h : x = y then .isTrue (h ▸ rfl) else .isFalse fun hh => h (Except.ok.inj hh)
  | .error _, .ok _ => .isFalse fun hh => Except.noConfusion hh
  | .ok _, .error _ => .isFalse fun hh => Except.noConfusion hh

/-- `OutputGenerator` state. -/
structure OutputGenerator where
  first_words : Dict
  refresh_limit : Int
  refresh_cnt : Int
  prev_4 : Option String
  prev_3 : Option String
  prev_prev : Option String
  prev : Option String
  deriving DecidableEq, Repr, Inhabited

/-- `TrigramModel.output_generator(refresh_limit)` /
`OutputGenerator.__init__`. -/
def output_generator (m : TrigramModel) (refresh_limit : Int) : OutputGenerator :=
  { first_words := m.first_words,
    refresh_limit := refresh_limit,
    refresh_cnt := refresh_limit,
    prev_4 := none, prev_3 := none, prev_prev := none, prev := none }

/-- The counter reset performed by `_rand_word()`. -/
def reset_refresh (g : OutputGenerator) : OutputGenerator :=
  { g with refresh_cnt := g.refresh_limit }

/-- `_rand_word()`: reset the refresh counter and draw from the keys; the
draw's value is supplied as `r`, and `choice` on an empty key tuple raises. -/
def rand_word (g : OutputGenerator) (r : String) :
    Except GenError (String × OutputGenerator) :=
  if g.first_words.isEmpty then .error .emptyChoice
  else .ok (r, reset_refresh g)

/-- Python `self.first_words[w]` with `w : Optional[str]`: `KeyError` when
`w` is `None` or not a key. -/
def dictIndex (d : Dict) (w : Option String) : Except GenError UnigramData :=
  match w with
  | none => .error (.keyError none)
  | some s =>
    match dictGet d s with
    | none => .error (.keyError (some s))
    | some u => .ok u

/-- `LinkedList.__getitem__` on a bigram list with an `Optional[str]` key:
comparing a node's word with `None` is always false in the source. -/
def findBigram (l : List BigramNode) (w : Option String) : Option BigramNode :=
  match w with
  | none => none
  | some s => l.find? (·.data = s)

/-- `_best_bigram()`. -/
def best_bigram (g : OutputGenerator) (r : String) :
    Except GenError (String × OutputGenerator) :=
  match dictIndex g.first_words g.prev with
  | .error e => .error e
  | .ok u =>
    match u.bigrams.head? with
    | some n => .ok (n.data, g)
    | none => rand_word g r

/-- `_best_trigram()`. -/
def best_trigram (g : OutputGenerator) (r : String) :
    Except GenError (String × OutputGenerator) :=
  match dictIndex g.first_words g.prev_prev with
  | .error e => .error e
  | .ok u =>
    match findBigram u.bigrams g.prev with
    | some bn =>
      match bn.child.head? with
      | some tn => .ok (tn.data, g)
      | none => best_bigram g r
    | none => best_bigram g r

/-- The candidate-selection conditional of `generate_word` (the chained `if`
expression assigning `new_word`): `r` is the value a random draw would
produce. -/
def select_candidate (g : OutputGenerator) (r : String) :
    Except GenError (String × OutputGenerator) :=
  if g.refresh_cnt ≤ 0 then rand_word g r
  else if g.prev_prev.isSome then best_trigram g r
  else if g.prev.isSome then best_bigram g r
  else rand_word g r

/-- The cycle test of `generate_word` on candidate `w`: Python `==` on
`Optional[str]` is `Option` equality, and the candidate (always a `str`) is
compared as `some w`. -/
def has_cycle (g : OutputGenerator) (w : String) : Bool :=
  (some w = g.prev_prev && g.prev = g.prev_3) ||
  (some w = g.prev_3 && g.prev = g.prev_4)

/-- The final state update of `generate_word()`: decrement the refresh
counter and shift the previous-words window forward by one, recording the
emitted word `w`. -/
def shift_window (g : OutputGenerator) (w : String) : OutputGenerator :=
  { g with
    refresh_cnt := g.refresh_cnt - 1
    prev_4 := g.prev_3
    prev_3 := g.prev_prev
    prev_prev := g.prev
    prev := some w }

/-- `generate_word()`: select a candidate (drawing `r1` if a draw is needed),
replace it by a draw of `r2` on a detected 2- or 3-word cycle, decrement the
refresh counter, and shift the 4-word window. -/
def generate_word (g : OutputGenerator) (r1 r2 : String) :
    Except GenError (String × OutputGenerator) :=
  match select_candidate g r1 with
  | .error e => .error e
  | .ok (w1, g1) =>
    match (if has_cycle g1 w1 then rand_word g1 r2 else .ok (w1, g1)) with
    | .error e => .error e
    | .ok (w2, g2) => .ok (w2, shift_window g2 w2)

/-- Pre-states of a run of `generate_word`: element `t` is the generator state
before step `t + 1`; the list is cut short if a step raises. -/
def gen_states (g : OutputGenerator) : List (String × String) → List OutputGenerator
  | [] => [g]
  | (r1, r2) :: rest =>
    g ::
      (match generate_word g r1 r2 with
       | .ok (_, g') => gen_states g' rest
       | .error _ => [])

/-- The maximum count of a container is attained at exactly one position: any
position `j` whose count equals the count of a maximal position `i` is `i`
itself. -/
def UniqueMax (cnts : List Nat) : Prop :=
  ∀ i, i < cnts.length → ∀ j, j < cnts.length →
    (∀ k, k < cnts.length → cnts.getD k 0 ≤ cnts.getD i 0) →
    cnts.getD j 0 = cnts.getD i 0 → i = j

instance (cnts : List Nat) : Decidable (UniqueMax cnts) :=
  inferInstanceAs (Decidable (∀ i, i < cnts.length → ∀ j, j < cnts.length →
    (∀ k, k < cnts.length → cnts.getD k 0 ≤ cnts.getD i 0) →
    cnts.getD j 0 = cnts.getD i 0 → i = j))

/-- The value content of a trigram container: its multiset of
(word, count) pairs. -/
def trigram_ms (l : List TrigramNode) : Multiset (String × Nat) :=
  (l.map fun n => (n.data, n.cnt) : List (String × Nat))

/-- The value content of a bigram container: its multiset of
(word, count, trigram content) triples. -/
def bigram_ms (l : List BigramNode) : Multiset (String × Nat × Multiset (String × Nat)) :=
  (l.map fun n => (n.data, n.cnt, trigram_ms n.child) :
    List (String × Nat × Multiset (String × Nat)))

/-- The value content of a whole model: the top-level mapping in order, each
unigram with its count and the content of its bigram container. -/
def model_view (m : TrigramModel) : List (String × Nat × Multiset (String × Nat × Multiset (String × Nat))) :=
  m.first_words.map fun p => (p.1, p.2.cnt, bigram_ms p.2.bigrams)

/-- `w` is a key of the top-level dict. -/
def isKey (d : Dict) (w : String) : Bool :=
  (dictGet d w).isSome

/-- All words stored as data of the nodes of a bigram container, including the
words of its trigram children. -/
def bigramWords (l : List BigramNode) : List String :=
  (l.map fun b => b.data :: b.child.map (·.data)).flatten

/-- All words stored as data of any bigram or trigram node of the model. -/
def dataWords (d : Dict) : List String :=
  (d.map fun p => bigramWords p.2.bigrams).flatten

/-- Every stored bigram/trigram data word is a key of the top-level dict. -/
def vocab_closed (d : Dict) : Bool :=
  (dataWords d).all (isKey d)

/-- The generator window only holds dict keys, and `prev_prev` is only set
when `prev` is (which is invariant under generation from a fresh state). -/
def window_ok (d : Dict) (g : OutputGenerator) : Bool :=
  g.prev.all (isKey d) && g.prev_prev.all (isKey d) &&
    (g.prev.isSome || !g.prev_prev.isSome)

/-- Modelled from the spec, section 4.4, bigram rule: "Else if `w[t-1]` is
set: look up the Unigram for `w[t-1]`; if its Bigram container is non-empty,
candidate is the word at its head. Otherwise fall back to the next rule",
the next rule being the uniform random draw (whose value is `r`; the Boolean
records that the draw was used, which resets the refresh counter). -/
def spec_bigram_rule (d : Dict) (p : String) (r : String) : String × Bool :=
  match dictGet d p with
  | some u =>
    match u.bigrams.head? with
    | some n => (n.data, false)
    | none => (r, true)
  | none => (r, true)

/-- Modelled from the spec, section 4.4, trigram rule: "Else if both
`w[t-2]` and `w[t-1]` are set: look up the Bigram entry for `w[t-1]` under
the Unigram for `w[t-2]`. If that Bigram exists and its Trigram container is
non-empty, the candidate is the word at the head of that Trigram container.
Otherwise fall back to the next rule." -/
def spec_trigram_rule (d : Dict) (pp p : String) (r : String) : String × Bool :=
  match dictGet d pp with
  | some u =>
    match u.bigrams.find? (·.data = p) with
    | some bn =>
      match bn.child.head? with
      | some tn => (tn.data, false)
      | none => spec_bigram_rule d p r
    | none => spec_bigram_rule d p r
  | none => spec_bigram_rule d p r

/-- Modelled from the spec, section 4.4, candidate selection: first matching
rule of refresh / trigram-head / bigram-head / random wins. -/
def spec_select (g : OutputGenerator) (r : String) : String × Bool :=
  if g.refresh_cnt ≤ 0 then (r, true)
  else
    match g.prev_prev, g.prev with
    | some pp, some p => spec_trigram_rule g.first_words pp p r
    | _, some p => spec_bigram_rule g.first_words p r
    | _, none => (r, true)

/-- The training invariant: every stored bigram/trigram data word is already
a key, or is one of the two words of the rolling window (which `end_input`
will count as unigrams at the end of the cycle). -/
def train_inv (m : TrigramModel) : Prop :=
  ∀ w ∈ dataWords m.first_words,
    isKey m.first_words w = true ∨ w = m.prev_prev ∨ w = m.prev

/-- A two-document corpus whose bigram and trigram containers under the
unigram "x" and the bigram ("x","y") hold two entries with tied counts. -/
def tie_model : TrigramModel :=
  run_cycles [⟨"x", "y", ["a"]⟩, ⟨"x", "y", ["b"]⟩] initModel

/-- A two-document corpus giving keys a..e, with "b" the best bigram after
"a" and "e" the best bigram after "d". -/
def run_model : TrigramModel :=
  finish (run_cycles [⟨"a", "b", ["c"]⟩, ⟨"d", "e", ["a"]⟩] initModel)

/-- Pre-states of a five-step generation run on `run_model` with
`refresh_limit = 2`; the supplied draw values are keys of the model. -/
def run_states : List OutputGenerator :=
  gen_states (output_generator run_model 2)
    [("a", "a"), ("a", "a"), ("d", "d"), ("a", "a"), ("e", "e")]

/-- The stored unigram count for `w` (0 when `w` is not a key). -/
def unigram_cnt (d : Dict) (w : String) : Nat :=
  ((dictGet d w).map (·.cnt)).getD 0

/-- The stored bigram count for the pair `(w1, w2)` (0 when absent). -/
def bigram_cnt (d : Dict) (w1 w2 : String) : Nat :=
  (((dictGet d w1).bind fun u => u.bigrams.find? (·.data = w2)).map (·.cnt)).getD 0

/-- The stored trigram count for the triple `(w1, w2, w3)` (0 when absent). -/
def trigram_cnt (d : Dict) (w1 w2 w3 : String) : Nat :=
  ((((dictGet d w1).bind fun u => u.bigrams.find? (·.data = w2)).bind
    fun b => b.child.find? (·.data = w3)).map (·.cnt)).getD 0

/-! ## Properties of the finish scan -/

/-- If every remaining count is strictly below the running best, the scan
changes nothing. -/
theorem bestFrom_all_lt : ∀ {l : List Nat} {b : Int} {bj : Option Nat} {k : Nat},
    (∀ c ∈ l, (c : Int) < b) → bestFrom b bj k l = (b, bj)
  | [], _, _, _, _ => rfl
  | c :: rest, b, bj, k, h => by
    have hc : (c : Int) < b := h c (List.mem_cons_self c rest)
    rw [bestFrom, if_neg (by omega)]
    exact bestFrom_all_lt fun d hd => h d (List.mem_cons_of_mem c hd)

/-- `l.getD i d` is a member of `l` when `i` is in range. -/
theorem getD_mem_of_lt {l : List α} {i : Nat} (h : i < l.length) (d : α) :
    l.getD i d ∈ l := by
  rw [List.getD_eq_getElem l d h]
  exact List.getElem_mem h

/-- Characterization of the `_update_choice` scan: if some count reaches the
running best, the scan returns the position of the last count attaining the
maximum, together with that maximum. -/
theorem bestFrom_char : ∀ (l : List Nat) (b : Int) (bj : Option Nat) (k : Nat),
    (∃ c ∈ l, b ≤ (c : Int)) →
    ∃ j, j < l.length ∧ bestFrom b bj k l = ((l.getD j 0 : Int), some (k + j)) ∧
      b ≤ (l.getD j 0 : Int) ∧
      (∀ i, i < l.length → l.getD i 0 ≤ l.getD j 0) ∧
      (∀ i, i < l.length → j < i → l.getD i 0 < l.getD j 0)
  | [], b, bj, k, h => absurd h (by simp)
  | c :: rest, b, bj, k, h => by
    by_cases hbc : b ≤ (c : Int)
    · rw [bestFrom, if_pos hbc]
      by_cases h2 : ∃ d ∈ rest, (c : Int) ≤ (d : Int)
      · obtain ⟨j', hj', heq, hble, hmax, hafter⟩ := bestFrom_char rest (c : Int) (some k) (k + 1) h2
        refine ⟨j' + 1, by simpa using hj', ?_, ?_, ?_, ?_⟩
        · simpa [Nat.add_assoc, Nat.add_comm 1 j'] using heq
        · exact le_trans hbc (by simpa using hble)
        · intro i hi
          cases i with
          | zero => simpa using (by exact_mod_cast hble : c ≤ rest.getD j' 0)
          | succ i' => simpa using hmax i' (by simpa using hi)
        · intro i hi hji
          cases i with
          | zero => omega
          | succ i' => simpa using hafter i' (by simpa using hi) (by omega)
      · push_neg at h2
        rw [bestFrom_all_lt fun d hd => h2 d hd]
        refine ⟨0, by simp, by simp, by simpa using hbc, ?_, ?_⟩
        · intro i hi
          cases i with
          | zero => simp
          | succ i' =>
            have := h2 (rest.getD i' 0) (getD_mem_of_lt (by simpa using hi) 0)
            simpa using le_of_lt (by exact_mod_cast this : rest.getD i' 0 < c)
        · intro i hi hji
          cases i with
          | zero => omega
          | succ i' =>
            have := h2 (rest.getD i' 0) (getD_mem_of_lt (by simpa using hi) 0)
            simpa using (by exact_mod_cast this : rest.getD i' 0 < c)
    · rw [bestFrom, if_neg hbc]
      have h2 : ∃ d ∈ rest, b ≤ (d : Int) := by
        obtain ⟨e, he, hbe⟩ := h
        rcases List.mem_cons.1 he with rfl | hmem
        · exact absurd hbe hbc
        · exact ⟨e, hmem, hbe⟩
      obtain ⟨j', hj', heq, hble, hmax, hafter⟩ := bestFrom_char rest b bj (k + 1) h2
      refine ⟨j' + 1, by simpa using hj', ?_, by simpa using hble, ?_, ?_⟩
      · simpa [Nat.add_assoc, Nat.add_comm 1 j'] using heq
      · intro i hi
        cases i with
        | zero =>
          have : (c : Int) < (rest.getD j' 0 : Int) := lt_of_lt_of_le (lt_of_not_le hbc) hble
          simpa using le_of_lt (by exact_mod_cast this : c < rest.getD j' 0)
        | succ i' => simpa using hmax i' (by simpa using hi)
      · intro i hi hji
        cases i with
        | zero => omega
        | succ i' => simpa using hafter i' (by simpa using hi) (by omega)

/-- The full scan on a non-empty count list returns the index of the last
maximal count. -/
theorem scan_spec {l : List Nat} (h : l ≠ []) :
    ∃ j, j < l.length ∧ (update_choice_scan l).2 = some j ∧
      (∀ i, i < l.length → l.getD i 0 ≤ l.getD j 0) ∧
      (∀ i, i < l.length → j < i → l.getD i 0 < l.getD j 0) := by
  obtain ⟨c, hc⟩ := List.exists_mem_of_ne_nil l h
  obtain ⟨j, hj, heq, _, hmax, hafter⟩ :=
    bestFrom_char l (-1) none 0 ⟨c, hc, by omega⟩
  exact ⟨j, hj, by simp [update_choice_scan, heq], hmax, hafter⟩

/-! ## Properties of `move_next_to_head` -/

/-- `List.map` commutes with `List.eraseIdx`. -/
theorem map_eraseIdx (f : α → β) : ∀ (l : List α) (i : Nat),
    (l.eraseIdx i).map f = (l.map f).eraseIdx i
  | [], _ => by simp
  | _ :: _, 0 => by simp
  | a :: t, i + 1 => by simp [map_eraseIdx f t i]

/-- Splicing the element at an in-range index to the front permutes the
list. -/
theorem cons_eraseIdx_perm :
    ∀ (l : List α) (i : Nat) (x : α), l[i]? = some x → (x :: l.eraseIdx i).Perm l
  | [], _, _, h => by simp at h
  | a :: t, 0, x, h => by
    simp at h
    subst h
    simp
  | a :: t, i + 1, x, h => by
    have ih := cons_eraseIdx_perm t i x (by simpa using h)
    have hsw : (x :: a :: t.eraseIdx i).Perm (a :: x :: t.eraseIdx i) :=
      List.Perm.swap a x (t.eraseIdx i)
    simpa using hsw.trans (ih.cons a)

/-- `move_next_to_head` permutes the list. -/
theorem move_perm (l : List α) (p : Option Nat) : (move_next_to_head l p).Perm l := by
  match p with
  | none => exact List.Perm.refl l
  | some j =>
    rw [move_next_to_head]
    by_cases hj : j = 0
    · rw [if_pos hj]
    · rw [if_neg hj]
      match he : l[j]? with
      | none => exact List.Perm.refl l
      | some x => exact cons_eraseIdx_perm l j x he

/-- On an in-range index, `move_next_to_head` puts that element at the head. -/
theorem move_head (l : List α) (d : α) {j : Nat} (h : j < l.length) :
    (move_next_to_head l (some j)).head? = some (l.getD j d) := by
  rw [move_next_to_head]
  by_cases hj : j = 0
  · subst hj
    rw [if_pos rfl]
    cases l with
    | nil => simp at h
    | cons a t => simp
  · rw [if_neg hj, List.getElem?_eq_getElem h, List.getD_eq_getElem l d h]
    simp

/-- `move_next_to_head` commutes with `List.map`. -/
theorem move_map (f : α → β) (l : List α) (p : Option Nat) :
    (move_next_to_head l p).map f = move_next_to_head (l.map f) p := by
  match p with
  | none => rfl
  | some j =>
    rw [move_next_to_head, move_next_to_head]
    by_cases hj : j = 0
    · rw [if_pos hj, if_pos hj]
    · rw [if_neg hj, if_neg hj]
      match he : l[j]? with
      | none =>
        have hge : l.length ≤ j := by
          by_contra hlt
          rw [List.getElem?_eq_getElem (by omega)] at he
          exact Option.noConfusion he
        rw [List.getElem?_eq_none (by simpa using hge)]
      | some x =>
        have hlt : j < l.length := by
          by_contra hge
          rw [List.getElem?_eq_none (by omega)] at he
          exact Option.noConfusion he
        have hmap : (l.map f)[j]? = some (f x) := by
          rw [List.getElem?_eq_getElem (by simpa using hlt), List.getElem_map]
          rw [List.getElem?_eq_getElem hlt] at he
          simp at he
          rw [he]
        rw [hmap]
        simp [map_eraseIdx]

/-! ## Head properties of one scan-and-splice pass -/

/-- Reading a mapped count list at an in-range index. -/
theorem cnt_getD (f : β → Nat) (l : List β) (d : β) {i : Nat} (h : i < l.length) :
    (l.map f).getD i 0 = f (l.getD i d) := by
  rw [List.getD_eq_getElem (l.map f) 0 (by simpa using h), List.getD_eq_getElem l d h,
    List.getElem_map]

/-- After one scan-and-splice pass driven by the counts `l'.map f`, the head's
count is maximal in the container. -/
theorem move_scan_head_max (f : β → Nat) (l' : List β) (d : β) {hd : β}
    (h : (move_next_to_head l' (update_choice_scan (l'.map f)).2).head? = some hd) :
    ∀ x ∈ move_next_to_head l' (update_choice_scan (l'.map f)).2, f x ≤ f hd := by
  rcases eq_or_ne l' [] with rfl | hne
  · intro x hx
    simp [move_next_to_head, update_choice_scan, bestFrom] at hx
  · obtain ⟨j, hj, hscan, hmax, _⟩ := scan_spec (l := l'.map f) (by simpa using hne)
    have hjl : j < l'.length := by simpa using hj
    rw [hscan] at h ⊢
    have hhd : hd = l'.getD j d := by
      have hh := move_head l' d hjl
      rw [h] at hh
      exact Option.some.inj hh
    intro x hx
    have hxl : x ∈ l' := (move_perm l' (some j)).mem_iff.1 hx
    obtain ⟨i, hi, rfl⟩ := List.mem_iff_getElem.1 hxl
    have h1 := hmax i (by simpa using hi)
    rw [cnt_getD f l' d hi, cnt_getD f l' d hjl] at h1
    rw [hhd, ← List.getD_eq_getElem l' d hi]
    exact h1

/-- After one scan-and-splice pass, the head is the entry at the position `j`
that attains the maximum and is followed only by strictly smaller counts —
the last maximal entry in pre-pass order, i.e. the earliest-created one in a
front-inserting container. -/
theorem move_scan_head_last_max (f : β → Nat) (l' : List β) (d : β) {j : Nat}
    (hjl : j < l'.length)
    (hmax : ∀ i, i < l'.length → f (l'.getD i d) ≤ f (l'.getD j d))
    (hafter : ∀ i, i < l'.length → j < i → f (l'.getD i d) < f (l'.getD j d)) :
    (move_next_to_head l' (update_choice_scan (l'.map f)).2).head? = some (l'.getD j d) := by
  have hne : l' ≠ [] := by
    intro h
    subst h
    simp at hjl
  obtain ⟨j', hj', hscan, hmax', hafter'⟩ := scan_spec (l := l'.map f) (by simpa using hne)
  have hj'l : j' < l'.length := by simpa using hj'
  have hjj : j = j' := by
    rcases lt_trichotomy j j' with h1 | h1 | h1
    · have ha := hafter j' hj'l h1
      have hb := hmax' j (by simpa using hjl)
      rw [cnt_getD f l' d hjl, cnt_getD f l' d hj'l] at hb
      omega
    · exact h1
    · have ha := hafter' j (by simpa using hjl) h1
      rw [cnt_getD f l' d hjl, cnt_getD f l' d hj'l] at ha
      have hb := hmax j' hj'l
      omega
  subst hjj
  rw [hscan]
  exact move_head l' d hjl

/-! ## Idempotence of one pass under unique maxima -/

/-- Splicing a strictly maximal in-range position to the front: the result is
that entry followed by strictly smaller ones. -/
theorem move_scan_shape (f : β → Nat) (l' : List β) (d : β) {j : Nat}
    (hjl : j < l'.length)
    (hstrict : ∀ i, i < l'.length → i ≠ j → f (l'.getD i d) < f (l'.getD j d)) :
    ∃ tl, move_next_to_head l' (some j) = l'.getD j d :: tl ∧
      ∀ x ∈ tl, f x < f (l'.getD j d) := by
  rw [move_next_to_head]
  by_cases hj : j = 0
  · subst hj
    rw [if_pos rfl]
    match l', hjl, hstrict with
    | a :: t, _, hstrict =>
      refine ⟨t, by simp, fun x hx => ?_⟩
      obtain ⟨i, hi, rfl⟩ := List.mem_iff_getElem.1 hx
      have h2 := hstrict (i + 1) (by simp only [List.length_cons]; omega) (by omega)
      rw [List.getD_cons_succ, List.getD_eq_getElem t _ hi] at h2
      exact h2
  · rw [if_neg hj, List.getElem?_eq_getElem hjl]
    refine ⟨l'.eraseIdx j, by rw [List.getD_eq_getElem l' d hjl], fun x hx => ?_⟩
    obtain ⟨i, hi, hij, rfl⟩ := List.mem_eraseIdx_iff_getElem.1 hx
    have h2 := hstrict i hi hij
    rw [List.getD_eq_getElem l' d hi] at h2
    exact h2

/-- The scan on a count list whose head strictly dominates the rest selects
the head position. -/
theorem scan_cons_strict {c : Nat} {rest : List Nat} (h : ∀ x ∈ rest, x < c) :
    update_choice_scan (c :: rest) = ((c : Int), some 0) := by
  rw [update_choice_scan, bestFrom, if_pos (by omega)]
  exact bestFrom_all_lt fun x hx => by exact_mod_cast h x hx

/-- A pass over a container whose head strictly dominates the rest is the
identity. -/
theorem move_scan_idem (f : β → Nat) {M : List β} {hd : β} {tl : List β}
    (hM : M = hd :: tl) (hstrict : ∀ x ∈ tl, f x < f hd) :
    move_next_to_head M (update_choice_scan (M.map f)).2 = M := by
  subst hM
  have hs : update_choice_scan ((hd :: tl).map f) = ((f hd : Int), some 0) := by
    rw [List.map_cons]
    refine scan_cons_strict fun x hx => ?_
    obtain ⟨y, hy, rfl⟩ := List.mem_map.1 hx
    exact hstrict y hy
  rw [hs]
  rfl

/-- From `UniqueMax` and a maximal position, every other position is strictly
smaller. -/
theorem strict_of_uniqueMax (f : β → Nat) (l' : List β) (d : β)
    (h : UniqueMax (l'.map f)) {j : Nat} (hjl : j < l'.length)
    (hmax : ∀ i, i < l'.length → f (l'.getD i d) ≤ f (l'.getD j d)) :
    ∀ i, i < l'.length → i ≠ j → f (l'.getD i d) < f (l'.getD j d) := by
  intro i hi hij
  rcases lt_or_eq_of_le (hmax i hi) with h1 | h1
  · exact h1
  · exfalso
    apply hij
    have := h j (by simpa using hjl) i (by simpa using hi)
      (fun k hk => by
        rw [cnt_getD f l' d (by simpa using hk), cnt_getD f l' d hjl]
        exact hmax k (by simpa using hk))
      (by rw [cnt_getD f l' d hjl, cnt_getD f l' d hi]; exact h1)
    omega

/-- `finish_trigrams` is idempotent when the maximal trigram count is unique. -/
theorem finish_trigrams_idem {l : List TrigramNode}
    (h : UniqueMax (l.map (·.cnt))) :
    finish_trigrams (finish_trigrams l) = finish_trigrams l := by
  rcases eq_or_ne l [] with rfl | hne
  · rfl
  · obtain ⟨j, hj, hscan, hmax, hafter⟩ := scan_spec (l := l.map (·.cnt)) (by simpa using hne)
    have hjl : j < l.length := by simpa using hj
    have hmax' : ∀ i, i < l.length → (l.getD i default).cnt ≤ (l.getD j default).cnt := by
      intro i hi
      have h1 := hmax i (by simpa using hi)
      rwa [cnt_getD (·.cnt) l default hi, cnt_getD (·.cnt) l default hjl] at h1
    have hstrict := strict_of_uniqueMax (·.cnt) l default h hjl hmax'
    obtain ⟨tl, hMeq, htl⟩ := move_scan_shape (·.cnt) l default hjl hstrict
    have hfin : finish_trigrams l = move_next_to_head l (some j) := by
      rw [finish_trigrams, hscan]
    rw [hfin, show finish_trigrams (move_next_to_head l (some j)) =
      move_next_to_head (move_next_to_head l (some j))
        (update_choice_scan ((move_next_to_head l (some j)).map (·.cnt))).2 from rfl]
    exact move_scan_idem (·.cnt) hMeq htl

/-- `finish_bigrams` is idempotent when the maximal bigram count is unique
and every trigram child container also has a unique maximal count. -/
theorem finish_bigrams_idem {l : List BigramNode}
    (hb : UniqueMax (l.map (·.cnt)))
    (hc : ∀ b ∈ l, UniqueMax (b.child.map (·.cnt))) :
    finish_bigrams (finish_bigrams l) = finish_bigrams l := by
  rcases eq_or_ne l [] with rfl | hne
  · rfl
  · have hcnts : (l.map finishChild).map (·.cnt) = l.map (·.cnt) := by
      rw [List.map_map]
      rfl
    obtain ⟨j, hj, hscan, hmax, _⟩ := scan_spec (l := l.map (·.cnt)) (by simpa using hne)
    have hjL : j < (l.map finishChild).length := by simpa using hj
    have hmax' : ∀ i, i < (l.map finishChild).length →
        ((l.map finishChild).getD i default).cnt ≤
        ((l.map finishChild).getD j default).cnt := by
      intro i hi
      have h1 := hmax i (by simpa using hi)
      rw [← hcnts] at h1
      rwa [cnt_getD (·.cnt) _ default hi, cnt_getD (·.cnt) _ default hjL] at h1
    have hUM : UniqueMax ((l.map finishChild).map (·.cnt)) := by
      rw [hcnts]
      exact hb
    have hstrict := strict_of_uniqueMax (·.cnt) (l.map finishChild) default hUM hjL hmax'
    obtain ⟨tl, hMeq, htl⟩ := move_scan_shape (·.cnt) (l.map finishChild) default hjL hstrict
    have hfin1 : finish_bigrams l = move_next_to_head (l.map finishChild) (some j) := by
      rw [finish_bigrams, hscan]
    have hmapid : (finish_bigrams l).map finishChild = finish_bigrams l := by
      rw [hfin1]
      have hptw : ∀ x ∈ move_next_to_head (l.map finishChild) (some j),
          finishChild x = x := by
        intro x hx
        have hxl := (move_perm _ (some j)).mem_iff.1 hx
        obtain ⟨y, hy, rfl⟩ := List.mem_map.1 hxl
        have hidem := finish_trigrams_idem (hc y hy)
        simp only [finishChild, hidem]
      calc (move_next_to_head (l.map finishChild) (some j)).map finishChild
          = (move_next_to_head (l.map finishChild) (some j)).map id :=
            List.map_congr_left hptw
        _ = _ := List.map_id _
    rw [show finish_bigrams (finish_bigrams l) =
      move_next_to_head ((finish_bigrams l).map finishChild)
        (update_choice_scan ((finish_bigrams l).map (·.cnt))).2 from rfl]
    rw [hmapid, hfin1]
    exact move_scan_idem (·.cnt) hMeq htl

/-! ## Frame lemmas for `finish` -/

/-- `getD` through `map` at an in-range index. -/
theorem getD_map' (f : α → β) (l : List α) (d : α) (d' : β) {j : Nat} (h : j < l.length) :
    (l.map f).getD j d' = f (l.getD j d) := by
  rw [List.getD_eq_getElem (l.map f) d' (by simpa using h), List.getD_eq_getElem l d h,
    List.getElem_map]

/-- The content of a trigram container is unchanged by its `finish` pass. -/
theorem trigram_ms_finish (l : List TrigramNode) :
    trigram_ms (finish_trigrams l) = trigram_ms l :=
  Multiset.coe_eq_coe.2 ((move_perm _ _).map _)

/-- The content of a bigram container is unchanged by its `finish` pass. -/
theorem bigram_ms_finish (l : List BigramNode) :
    bigram_ms (finish_bigrams l) = bigram_ms l := by
  have h1 : bigram_ms (finish_bigrams l) = bigram_ms (l.map finishChild) :=
    Multiset.coe_eq_coe.2 ((move_perm _ _).map _)
  rw [h1, bigram_ms, bigram_ms, List.map_map]
  congr 1
  apply List.map_congr_left
  intro n _
  simp only [Function.comp_apply, finishChild]
  rw [trigram_ms_finish]

/-- `dictGet` through the per-value map performed by `finish`. -/
theorem dictGet_finish (d : Dict) (w : String) :
    dictGet (d.map fun p => (p.1, ⟨p.2.cnt, finish_bigrams p.2.bigrams⟩)) w =
      (dictGet d w).map fun u => ⟨u.cnt, finish_bigrams u.bigrams⟩ := by
  induction d with
  | nil => rfl
  | cons p rest ih =>
    by_cases hp : p.1 = w
    · simp [dictGet, hp]
    · simp [dictGet, hp, ih]

/-- `incFirstTrigram` keeps the sequence of stored words unchanged. -/
theorem incFirstTrigram_data : ∀ (l : List TrigramNode) (w : String),
    (incFirstTrigram l w).map (·.data) = l.map (·.data)
  | [], _ => rfl
  | n :: rest, w => by
    by_cases hn : n.data = w
    · simp [incFirstTrigram, hn]
    · simp [incFirstTrigram, hn, incFirstTrigram_data rest w]

/-- `incFirstBigram` keeps the sequence of stored words unchanged. -/
theorem incFirstBigram_data (f : List TrigramNode → List TrigramNode) :
    ∀ (l : List BigramNode) (w : String),
    (incFirstBigram f l w).map (·.data) = l.map (·.data)
  | [], _ => rfl
  | n :: rest, w => by
    by_cases hn : n.data = w
    · simp [incFirstBigram, hn]
    · simp [incFirstBigram, hn, incFirstBigram_data f rest w]

/-! ## Effect of the counting updates -/

/-- `dictGet` after `modadd`. -/
theorem dictGet_modadd (d : Dict) (w w' : String) (f : UnigramData → UnigramData) :
    dictGet (modadd d w f) w' =
      if w' = w then some (f ((dictGet d w).getD ⟨0, []⟩)) else dictGet d w' := by
  induction d with
  | nil =>
    by_cases h : w' = w
    · simp [modadd, dictGet, h]
    · simp [modadd, dictGet, h, Ne.symm h]
  | cons p rest ih =>
    obtain ⟨k, v⟩ := p
    by_cases hk : k = w
    · subst hk
      by_cases h : w' = k
      · subst h
        simp [modadd, dictGet]
      · simp [modadd, dictGet, h, Ne.symm h]
    · by_cases h : k = w'
      · subst h
        simp [modadd, dictGet, hk, Ne.symm hk]
      · simp [modadd, dictGet, hk, h, ih]

/-- `find?` for the counted word after `incFirstBigram`. -/
theorem find?_incFirstBigram (f : List TrigramNode → List TrigramNode) :
    ∀ (l : List BigramNode) (w : String),
    (incFirstBigram f l w).find? (·.data = w) =
      (l.find? (·.data = w)).map fun b => ⟨b.data, b.cnt + 1, f b.child⟩
  | [], _ => rfl
  | n :: rest, w => by
    by_cases hn : n.data = w
    · simp [incFirstBigram, hn, List.find?_cons_of_pos]
    · rw [incFirstBigram, if_neg hn, List.find?_cons_of_neg _ (by simp [hn]),
        List.find?_cons_of_neg _ (by simp [hn]), find?_incFirstBigram f rest w]

/-- `find?` for other words after `incFirstBigram`. -/
theorem find?_incFirstBigram_other (f : List TrigramNode → List TrigramNode)
    {w w' : String} (hw : w' ≠ w) :
    ∀ (l : List BigramNode),
    (incFirstBigram f l w).find? (·.data = w') = l.find? (·.data = w')
  | [] => rfl
  | n :: rest => by
    by_cases hn : n.data = w
    · rw [incFirstBigram, if_pos hn, List.find?_cons_of_neg _ (by simp [hn, hw.symm]),
        List.find?_cons_of_neg _ (by simp [hn, hw.symm])]
    · by_cases hn' : n.data = w'
      · rw [incFirstBigram, if_neg hn, List.find?_cons_of_pos _ (by simp [hn']),
          List.find?_cons_of_pos _ (by simp [hn'])]
      · rw [incFirstBigram, if_neg hn, List.find?_cons_of_neg _ (by simp [hn']),
          List.find?_cons_of_neg _ (by simp [hn']),
          find?_incFirstBigram_other f hw rest]

/-- `find?` for the counted word after `_count_bigram`. -/
theorem find?_count_bigram_same (l : List BigramNode) (w : String)
    (f : List TrigramNode → List TrigramNode) :
    (count_bigram_with l w f).find? (·.data = w) =
      some (match l.find? (·.data = w) with
            | some b => ⟨b.data, b.cnt + 1, f b.child⟩
            | none => ⟨w, 1, f []⟩) := by
  rw [count_bigram_with]
  by_cases hany : l.any (·.data = w)
  · rw [if_pos hany, find?_incFirstBigram]
    obtain ⟨b, hb⟩ : ∃ b, l.find? (·.data = w) = some b := by
      obtain ⟨x, hx, hpx⟩ := List.any_eq_true.1 hany
      exact Option.isSome_iff_exists.1 (List.find?_isSome.2 ⟨x, hx, hpx⟩)
    rw [hb]
    rfl
  · rw [if_neg hany]
    have hnone : l.find? (·.data = w) = none := by
      rw [List.find?_eq_none]
      intro x hx hpx
      exact hany (List.any_eq_true.2 ⟨x, hx, hpx⟩)
    rw [List.find?_cons_of_pos _ (by simp), hnone]

/-- `find?` for other words after `_count_bigram`. -/
theorem find?_count_bigram_other (l : List BigramNode) {w w' : String} (hw : w' ≠ w)
    (f : List TrigramNode → List TrigramNode) :
    (count_bigram_with l w f).find? (·.data = w') = l.find? (·.data = w') := by
  rw [count_bigram_with]
  by_cases hany : l.any (·.data = w)
  · rw [if_pos hany, find?_incFirstBigram_other f hw]
  · rw [if_neg hany, List.find?_cons_of_neg _ (by simp [hw.symm])]

/-- Reading a count through `Option.getD` or through `Option.map`. -/
theorem cnt_getD_opt (o : Option UnigramData) :
    (o.getD ⟨0, []⟩).cnt = ((o.map (·.cnt)).getD 0) := by
  cases o <;> rfl

/-- Reading the bigram list of an optional unigram. -/
theorem find?_getD_bigrams (o : Option UnigramData) (q : BigramNode → Bool) :
    (o.getD ⟨0, []⟩).bigrams.find? q = o.bind fun u => u.bigrams.find? q := by
  cases o <;> rfl

/-- The unigram-count effect of `_count_unigram` on the counted word. -/
theorem unigram_cnt_modadd (d : Dict) (w a : String) (f : UnigramData → UnigramData)
    (hf : ∀ u, (f u).cnt = u.cnt + 1) :
    unigram_cnt (modadd d w f) a = unigram_cnt d a + (if a = w then 1 else 0) := by
  rw [unigram_cnt, unigram_cnt, dictGet_modadd]
  by_cases h : a = w
  · rw [if_pos h, if_pos h, h]
    simp [hf, cnt_getD_opt]
  · rw [if_neg h, if_neg h]
    simp

/-- A `modadd` whose update keeps the bigram list leaves every bigram lookup
unchanged. -/
theorem bigram_find_modadd_frame (d : Dict) (w a : String) (q : BigramNode → Bool)
    (f : UnigramData → UnigramData) (hf : ∀ u, (f u).bigrams = u.bigrams) :
    ((dictGet (modadd d w f) a).bind fun u => u.bigrams.find? q) =
    (dictGet d a).bind fun u => u.bigrams.find? q := by
  rw [dictGet_modadd]
  by_cases h : a = w
  · rw [if_pos h, h]
    rw [show ((some (f ((dictGet d w).getD ⟨0, []⟩))).bind fun u => u.bigrams.find? q) =
      (f ((dictGet d w).getD ⟨0, []⟩)).bigrams.find? q from rfl]
    rw [hf, find?_getD_bigrams]
  · rw [if_neg h]

/-- The bigram lookups after the `_count_unigram`/`_count_bigram` pair of
`end_input` (child transform `id`). -/
theorem bigram_find_modadd_count (d : Dict) (w p a b : String)
    (f : UnigramData → UnigramData)
    (hf : ∀ u, (f u).bigrams = count_bigram_with u.bigrams p id) :
    ((dictGet (modadd d w f) a).bind fun u => u.bigrams.find? (·.data = b)) =
    if a = w ∧ b = p then
      some (match (dictGet d w).bind (fun u => u.bigrams.find? (·.data = p)) with
            | some bn => ⟨bn.data, bn.cnt + 1, bn.child⟩
            | none => ⟨p, 1, []⟩)
    else (dictGet d a).bind fun u => u.bigrams.find? (·.data = b) := by
  rw [dictGet_modadd]
  by_cases ha : a = w
  · rw [if_pos ha]
    rw [show ((some (f ((dictGet d w).getD ⟨0, []⟩))).bind
        fun u => u.bigrams.find? (·.data = b)) =
      (f ((dictGet d w).getD ⟨0, []⟩)).bigrams.find? (·.data = b) from rfl]
    rw [hf]
    by_cases hb : b = p
    · rw [hb, if_pos ⟨ha, rfl⟩, find?_count_bigram_same, ← find?_getD_bigrams]
      cases hfind : ((dictGet d w).getD ⟨0, []⟩).bigrams.find? (·.data = p) <;> simp [hfind]
    · rw [if_neg (show ¬(a = w ∧ b = p) from fun hh => hb hh.2),
        find?_count_bigram_other _ hb, find?_getD_bigrams, ha]
  · rw [if_neg ha, if_neg (show ¬(a = w ∧ b = p) from fun hh => ha hh.1)]

/-- C7: on any model state with rolling window `(prev_prev, prev)`,
`end_input()` adds one to the unigram count of `prev_prev` and one to the
unigram count of `prev`, adds one to the bigram count of
`(prev_prev, prev)`, changes no other unigram or bigram count, and changes
no trigram count at all (in particular, no trigram entry is recorded for the
boundary pair). -/
theorem c7_end_input_counts (m : TrigramModel) (a b c : String) :
    (unigram_cnt (end_input m).first_words a =
      unigram_cnt m.first_words a + (if a = m.prev_prev then 1 else 0) +
        (if a = m.prev then 1 else 0)) ∧
    (bigram_cnt (end_input m).first_words a b =
      bigram_cnt m.first_words a b +
        (if a = m.prev_prev ∧ b = m.prev then 1 else 0)) ∧
    trigram_cnt (end_input m).first_words a b c = trigram_cnt m.first_words a b c := by
  obtain ⟨d, pp, p⟩ := m
  have hfw : (end_input ⟨d, pp, p⟩).first_words =
      modadd (modadd d pp fun u => ⟨u.cnt + 1, count_bigram_with u.bigrams p id⟩) p
        (fun u => ⟨u.cnt + 1, u.bigrams⟩) := rfl
  rw [hfw]
  refine ⟨?_, ?_, ?_⟩
  · rw [unigram_cnt_modadd _ _ _ (fun u => ⟨u.cnt + 1, u.bigrams⟩) (fun u => rfl),
      unigram_cnt_modadd _ _ _ (fun u => ⟨u.cnt + 1,
        count_bigram_with u.bigrams p id⟩) (fun u => rfl)]
  · rw [bigram_cnt, bigram_cnt,
      bigram_find_modadd_frame _ _ _ _ (fun u => ⟨u.cnt + 1, u.bigrams⟩) (fun u => rfl),
      bigram_find_modadd_count _ _ _ _ _ (fun u => ⟨u.cnt + 1,
        count_bigram_with u.bigrams p id⟩) (fun u => rfl)]
    by_cases hc : a = pp ∧ b = p
    · rw [hc.1, hc.2, if_pos ⟨rfl, rfl⟩]
      cases hfind : (dictGet d pp).bind (fun u => u.bigrams.find? (·.data = p)) <;>
        simp [hfind]
    · rw [if_neg hc, if_neg hc]
      simp
  · rw [trigram_cnt, trigram_cnt,
      bigram_find_modadd_frame _ _ _ _ (fun u => ⟨u.cnt + 1, u.bigrams⟩) (fun u => rfl),
      bigram_find_modadd_count _ _ _ _ _ (fun u => ⟨u.cnt + 1,
        count_bigram_with u.bigrams p id⟩) (fun u => rfl)]
    by_cases hc : a = pp ∧ b = p
    · rw [hc.1, hc.2, if_pos ⟨rfl, rfl⟩]
      cases hfind : (dictGet d pp).bind (fun u => u.bigrams.find? (·.data = p)) with
      | none => rfl
      | some bn => rfl
    · rw [if_neg hc]

/-- C7 witness: the boundary accounting on a concrete model. -/
theorem c7_end_input_counts_witness :
    unigram_cnt (end_input (start_input initModel "x" "y")).first_words "x" =
      unigram_cnt (start_input initModel "x" "y").first_words "x" + 1 + 0 := by
  have h := (c7_end_input_counts (start_input initModel "x" "y") "x" "y" "z").1
  simpa using h

/-! ## Step lemmas for the output generator -/

/-- A successful `_rand_word` returns the drawn value, resets the refresh
counter, and requires a non-empty key set. -/
theorem rand_word_ok {g : OutputGenerator} {r w : String} {g1 : OutputGenerator}
    (h : rand_word g r = .ok (w, g1)) :
    w = r ∧ g1 = reset_refresh g ∧ g.first_words ≠ [] := by
  rw [rand_word] at h
  by_cases he : g.first_words.isEmpty
  · rw [if_pos he] at h
    exact absurd h (by simp)
  · rw [if_neg he] at h
    have h2 := Except.ok.inj h
    exact ⟨(congrArg Prod.fst h2).symm, (congrArg Prod.snd h2).symm,
      by simpa [List.isEmpty_iff] using he⟩

/-- `_rand_word` on a non-empty key set succeeds. -/
theorem rand_word_of_ne {g : OutputGenerator} (hne : g.first_words ≠ []) (r : String) :
    rand_word g r = .ok (r, reset_refresh g) := by
  rw [rand_word, if_neg (by simpa [List.isEmpty_iff] using hne)]

/-- A successful candidate selection either keeps the generator state or
merely resets the refresh counter. -/
theorem select_candidate_ok {g : OutputGenerator} {r w : String} {g1 : OutputGenerator}
    (h : select_candidate g r = .ok (w, g1)) :
    g1 = g ∨ g1 = reset_refresh g := by
  have hbb : ∀ {w' : String} {g1' : OutputGenerator}, best_bigram g r = .ok (w', g1') →
      g1' = g ∨ g1' = reset_refresh g := by
    intro w' g1' hb
    rw [best_bigram] at hb
    split at hb
    · exact absurd hb (by simp)
    · split at hb
      · exact Or.inl (congrArg Prod.snd (Except.ok.inj hb)).symm
      · exact Or.inr (rand_word_ok hb).2.1
  have hbt : ∀ {w' : String} {g1' : OutputGenerator}, best_trigram g r = .ok (w', g1') →
      g1' = g ∨ g1' = reset_refresh g := by
    intro w' g1' hb
    rw [best_trigram] at hb
    split at hb
    · exact absurd hb (by simp)
    · split at hb
      · split at hb
        · exact Or.inl (congrArg Prod.snd (Except.ok.inj hb)).symm
        · exact hbb hb
      · exact hbb hb
  rw [select_candidate] at h
  by_cases h0 : g.refresh_cnt ≤ 0
  · rw [if_pos h0] at h
    exact Or.inr (rand_word_ok h).2.1
  · rw [if_neg h0] at h
    by_cases hpp : g.prev_prev.isSome
    · rw [if_pos hpp] at h
      exact hbt h
    · rw [if_neg hpp] at h
      by_cases hp : g.prev.isSome
      · rw [if_pos hp] at h
        exact hbb h
      · rw [if_neg hp] at h
        exact Or.inr (rand_word_ok h).2.1

/-- Fields other than the refresh counter are preserved by a successful
candidate selection. -/
theorem select_candidate_fields {g : OutputGenerator} {r w : String} {g1 : OutputGenerator}
    (h : select_candidate g r = .ok (w, g1)) :
    g1.first_words = g.first_words ∧ g1.refresh_limit = g.refresh_limit ∧
    g1.prev = g.prev ∧ g1.prev_prev = g.prev_prev ∧
    g1.prev_3 = g.prev_3 ∧ g1.prev_4 = g.prev_4 := by
  rcases select_candidate_ok h with rfl | rfl
  · exact ⟨rfl, rfl, rfl, rfl, rfl, rfl⟩
  · exact ⟨rfl, rfl, rfl, rfl, rfl, rfl⟩

/-- `generate_word` on a successful selection, no cycle detected: the
candidate is kept and the counter is decremented. -/
theorem generate_word_no_cycle {g : OutputGenerator} {r1 : String} (r2 : String)
    {w1 : String} {g1 : OutputGenerator}
    (hsel : select_candidate g r1 = .ok (w1, g1)) (hcyc : has_cycle g1 w1 = false) :
    generate_word g r1 r2 = .ok (w1, shift_window g1 w1) := by
  rw [generate_word, hsel]
  show (match (if has_cycle g1 w1 = true then rand_word g1 r2 else Except.ok (w1, g1)) with
    | Except.error e => Except.error e
    | Except.ok (w2, g2) => Except.ok (w2, shift_window g2 w2)) =
    Except.ok (w1, shift_window g1 w1)
  rw [hcyc]
  rfl

/-- `generate_word` on a successful selection, cycle detected: the candidate
is discarded for the second draw, which resets the counter before the final
decrement. -/
theorem generate_word_cycle {g : OutputGenerator} {r1 : String} (r2 : String)
    {w1 : String} {g1 : OutputGenerator}
    (hsel : select_candidate g r1 = .ok (w1, g1)) (hcyc : has_cycle g1 w1 = true)
    (hne : g1.first_words ≠ []) :
    generate_word g r1 r2 = .ok (r2, shift_window (reset_refresh g1) r2) := by
  rw [generate_word, hsel]
  show (match (if has_cycle g1 w1 = true then rand_word g1 r2 else Except.ok (w1, g1)) with
    | Except.error e => Except.error e
    | Except.ok (w2, g2) => Except.ok (w2, shift_window g2 w2)) =
    Except.ok (r2, shift_window (reset_refresh g1) r2)
  rw [hcyc, if_pos rfl, rand_word_of_ne hne]

/-! ## Claim theorems -/

/-- C8: `finish()` changes only positions of entries within their containers:
the top-level word-to-unigram mapping, every word, every count, and the
content of every container (as a multiset of entries) are unchanged. -/
theorem c8_finish_frame (m : TrigramModel) : model_view (finish m) = model_view m := by
  rw [model_view, model_view, finish, List.map_map]
  apply List.map_congr_left
  intro p _
  simp only [Function.comp_apply]
  rw [bigram_ms_finish]

/-- C1: after any sequence of complete training cycles followed by `finish()`,
in every unigram's non-empty bigram container and in every bigram's non-empty
trigram container, the head entry's count is greater than or equal to the
count of every entry of that container. -/
theorem c1_max_head (cs : List Cycle) (w : String) (u : UnigramData)
    (hu : dictGet (finish (run_cycles cs initModel)).first_words w = some u) :
    (∀ hd, u.bigrams.head? = some hd → ∀ b ∈ u.bigrams, b.cnt ≤ hd.cnt) ∧
    (∀ b ∈ u.bigrams, ∀ hd, b.child.head? = some hd → ∀ t ∈ b.child, t.cnt ≤ hd.cnt) := by
  rw [finish] at hu
  rw [dictGet_finish] at hu
  obtain ⟨u0, hu0, rfl⟩ := Option.map_eq_some'.1 hu
  constructor
  · intro hd hhd b hb
    have hcnts : (u0.bigrams.map finishChild).map (·.cnt) = u0.bigrams.map (·.cnt) := by
      rw [List.map_map]
      rfl
    have hform : finish_bigrams u0.bigrams =
        move_next_to_head (u0.bigrams.map finishChild)
          (update_choice_scan ((u0.bigrams.map finishChild).map (·.cnt))).2 := by
      rw [finish_bigrams, hcnts]
    rw [hform] at hhd hb
    exact move_scan_head_max (·.cnt) (u0.bigrams.map finishChild) default hhd b hb
  · intro b hb hd hhd t ht
    have hmem : b ∈ u0.bigrams.map finishChild :=
      (move_perm _ _).mem_iff.1 hb
    obtain ⟨y, _, rfl⟩ := List.mem_map.1 hmem
    have hchild : (finishChild y).child = finish_trigrams y.child := rfl
    rw [hchild, finish_trigrams] at hhd ht
    exact move_scan_head_max (·.cnt) y.child default hhd t ht

/-- C1 witness: the worked single-document corpus, its unigram "x", and its
containers. -/
theorem c1_max_head_witness : (⟨"w", 1⟩ : TrigramNode).cnt ≤ (⟨"z", 1⟩ : TrigramNode).cnt :=
  (c1_max_head [⟨"x", "y", ["z", "x", "y", "w"]⟩] "x"
      ⟨2, [⟨"y", 2, [⟨"z", 1⟩, ⟨"w", 1⟩]⟩]⟩ (by decide)).2
    ⟨"y", 2, [⟨"z", 1⟩, ⟨"w", 1⟩]⟩ (by decide) ⟨"z", 1⟩ (by decide) ⟨"w", 1⟩ (by decide)

/-- C2: among the entries of a container attaining the maximal count, the head
after `finish` is the one at the position `j` followed only by strictly
smaller counts — the last maximal position in scan order. Because containers
insert new entries only at the front and never reorder existing ones (last
two conjuncts), that position is the earliest-created tied entry (the word
first observed in that context), never a more recently created one. -/
theorem c2_tiebreak :
    (∀ (l : List TrigramNode) (j : Nat), j < l.length →
      (∀ i, i < l.length → (l.getD i default).cnt ≤ (l.getD j default).cnt) →
      (∀ i, i < l.length → j < i → (l.getD i default).cnt < (l.getD j default).cnt) →
      (finish_trigrams l).head? = some (l.getD j default)) ∧
    (∀ (l : List BigramNode) (j : Nat), j < l.length →
      (∀ i, i < l.length → (l.getD i default).cnt ≤ (l.getD j default).cnt) →
      (∀ i, i < l.length → j < i → (l.getD i default).cnt < (l.getD j default).cnt) →
      (finish_bigrams l).head? = some (finishChild (l.getD j default))) ∧
    (∀ (l : List TrigramNode) (w : String),
      (count_trigram l w).map (·.data) = l.map (·.data) ∨
      (count_trigram l w).map (·.data) = w :: l.map (·.data)) ∧
    (∀ (l : List BigramNode) (w : String) (f : List TrigramNode → List TrigramNode),
      (count_bigram_with l w f).map (·.data) = l.map (·.data) ∨
      (count_bigram_with l w f).map (·.data) = w :: l.map (·.data)) := by
  refine ⟨?_, ?_, ?_, ?_⟩
  · intro l j hj hmax hafter
    exact move_scan_head_last_max (·.cnt) l default hj hmax hafter
  · intro l j hj hmax hafter
    have hcnts : (l.map finishChild).map (·.cnt) = l.map (·.cnt) := by
      rw [List.map_map]
      rfl
    have hform : finish_bigrams l =
        move_next_to_head (l.map finishChild)
          (update_choice_scan ((l.map finishChild).map (·.cnt))).2 := by
      rw [finish_bigrams, hcnts]
    rw [hform]
    have hjL : j < (l.map finishChild).length := by simpa using hj
    have hres := move_scan_head_last_max (·.cnt) (l.map finishChild) default hjL
      (fun i hi => by
        rw [getD_map' finishChild l default default (by simpa using hi),
          getD_map' finishChild l default default (by simpa using hj)]
        exact hmax i (by simpa using hi))
      (fun i hi hji => by
        rw [getD_map' finishChild l default default (by simpa using hi),
          getD_map' finishChild l default default (by simpa using hj)]
        exact hafter i (by simpa using hi) hji)
    rwa [getD_map' finishChild l default default hj] at hres
  · intro l w
    rw [count_trigram]
    by_cases hl : l.any (·.data = w)
    · rw [if_pos hl]
      exact Or.inl (incFirstTrigram_data l w)
    · rw [if_neg hl]
      exact Or.inr (by simp)
  · intro l w f
    rw [count_bigram_with]
    by_cases hl : l.any (·.data = w)
    · rw [if_pos hl]
      exact Or.inl (incFirstBigram_data f l w)
    · rw [if_neg hl]
      exact Or.inr (by simp)

/-- C2 witness: a two-entry tied trigram container in which the second listed
entry (the earlier-created one, since insertion prepends) becomes the head. -/
theorem c2_tiebreak_witness :
    (finish_trigrams [⟨"b", 1⟩, ⟨"a", 1⟩]).head? =
      some (([⟨"b", 1⟩, ⟨"a", 1⟩] : List TrigramNode).getD 1 default) :=
  c2_tiebreak.1 [⟨"b", 1⟩, ⟨"a", 1⟩] 1 (by decide) (by decide) (by decide)

/-- C3 counterexample: on the trained two-document corpus `tie_model`, whose
containers hold two entries with tied counts, a second `finish()` produces a
different entry ordering (the tied heads swap), so `finish` as implemented is
not idempotent. -/
theorem c3_counterexample : finish (finish tie_model) ≠ finish tie_model := by decide

/-- C3 amended: `finish()` is idempotent on every model in which the maximal
count of every bigram container and of every trigram container is attained by
exactly one entry; with tied maxima a second call may promote a different
tied entry. -/
theorem c3_finish_idempotent_of_unique_max (m : TrigramModel)
    (h : ∀ p ∈ m.first_words, UniqueMax (p.2.bigrams.map (·.cnt)) ∧
      ∀ b ∈ p.2.bigrams, UniqueMax (b.child.map (·.cnt))) :
    finish (finish m) = finish m := by
  cases m with
  | mk fw pp p =>
    have key : ((fw.map fun q => (q.1, (⟨q.2.cnt, finish_bigrams q.2.bigrams⟩ : UnigramData))).map
        fun q => (q.1, (⟨q.2.cnt, finish_bigrams q.2.bigrams⟩ : UnigramData))) =
        fw.map fun q => (q.1, (⟨q.2.cnt, finish_bigrams q.2.bigrams⟩ : UnigramData)) := by
      rw [List.map_map]
      apply List.map_congr_left
      intro q hq
      obtain ⟨h1, h2⟩ := h q hq
      simp only [Function.comp_apply]
      rw [finish_bigrams_idem h1 h2]
    exact congrArg (fun d => TrigramModel.mk d pp p) key

/-- C3 witness: a single-document corpus with all counts distinct within each
container. -/
theorem c3_idempotent_witness :
    finish (finish (run_cycles [⟨"a", "b", ["c"]⟩] initModel)) =
      finish (run_cycles [⟨"a", "b", ["c"]⟩] initModel) :=
  c3_finish_idempotent_of_unique_max _ (by decide)

/-- `dictIndex` on a present key. -/
theorem dictIndex_some {d : Dict} {p : String} {u : UnigramData}
    (hu : dictGet d p = some u) : dictIndex d (some p) = .ok u := by
  show (match dictGet d p with
    | none => Except.error (GenError.keyError (some p))
    | some u => Except.ok u) = Except.ok u
  rw [hu]

/-- `_best_bigram` realizes the spec's bigram rule when the context word is a
key. -/
theorem best_bigram_spec {g : OutputGenerator} {p : String} (r : String)
    (hpeq : g.prev = some p) (hne : g.first_words ≠ [])
    (hkey : isKey g.first_words p = true) :
    best_bigram g r = .ok ((spec_bigram_rule g.first_words p r).1,
      if (spec_bigram_rule g.first_words p r).2 = true then reset_refresh g else g) := by
  obtain ⟨u, hu⟩ := Option.isSome_iff_exists.1 (by rwa [isKey] at hkey)
  have hspec : spec_bigram_rule g.first_words p r =
      match u.bigrams.head? with
      | some n => (n.data, false)
      | none => (r, true) := by
    rw [spec_bigram_rule, hu]
  rw [best_bigram, hpeq, dictIndex_some hu, hspec]
  show (match u.bigrams.head? with
    | some n => Except.ok (n.data, g)
    | none => rand_word g r) = _
  cases hh : u.bigrams.head? with
  | some n => rfl
  | none =>
    rw [rand_word_of_ne hne]
    rfl

/-- C6: in every call to `generate_word()` whose candidate selection
succeeds, the candidate is discarded and replaced by a uniform draw — which
also resets the refresh counter before the final decrement — exactly when
`candidate = w[t-2]` and `w[t-1] = w[t-3]`, or `candidate = w[t-3]` and
`w[t-1] = w[t-4]`; otherwise the candidate is kept. -/
theorem c6_cycle_suppression (g : OutputGenerator) (r1 r2 w1 : String)
    (g1 : OutputGenerator)
    (hsel : select_candidate g r1 = .ok (w1, g1)) (hne : g.first_words ≠ []) :
    (((some w1 = g.prev_prev ∧ g.prev = g.prev_3) ∨
      (some w1 = g.prev_3 ∧ g.prev = g.prev_4)) →
      generate_word g r1 r2 = .ok (r2, shift_window (reset_refresh g1) r2)) ∧
    (¬((some w1 = g.prev_prev ∧ g.prev = g.prev_3) ∨
       (some w1 = g.prev_3 ∧ g.prev = g.prev_4)) →
      generate_word g r1 r2 = .ok (w1, shift_window g1 w1)) := by
  obtain ⟨hfw, _, hprev, hpp, h3, h4⟩ := select_candidate_fields hsel
  have hiff : has_cycle g1 w1 = true ↔
      ((some w1 = g.prev_prev ∧ g.prev = g.prev_3) ∨
       (some w1 = g.prev_3 ∧ g.prev = g.prev_4)) := by
    rw [has_cycle, hprev, hpp, h3, h4]
    simp [Bool.or_eq_true, Bool.and_eq_true, decide_eq_true_eq]
  constructor
  · intro hcond
    exact generate_word_cycle r2 hsel (hiff.2 hcond) (by rwa [hfw])
  · intro hcond
    have hfalse : has_cycle g1 w1 = false := by
      cases hb : has_cycle g1 w1 with
      | true => exact absurd (hiff.1 hb) hcond
      | false => rfl
    exact generate_word_no_cycle r2 hsel hfalse

/-- C6 witness: a first call on a fresh generator; no cycle is possible, the
candidate (a random draw, since the window is empty) is kept. -/
theorem c6_cycle_suppression_witness :
    generate_word (output_generator run_model 2) "q" "q" =
      .ok ("q", shift_window (output_generator run_model 2) "q") :=
  (c6_cycle_suppression (output_generator run_model 2) "q" "q" "q"
      (output_generator run_model 2) (by decide) (by decide)).2 (by decide)

/-- C9 counterexample: on a model with zero unigrams, generator construction
does not fail, and the first `generate_word()` call fails with the error of
drawing from the empty key tuple (`random.choice`'s `IndexError`), not with
an explicit precondition-violation rejection. -/
theorem c9_counterexample :
    generate_word (output_generator initModel 5) "q" "q" = .error .emptyChoice ∧
    generate_word (output_generator initModel 5) "q" "q" ≠ .error .precondition := by
  decide

/-- C9 amended: a generator built on a model with zero unigrams never returns
a word: construction itself performs no check and always succeeds, and every
first `generate_word()` call fails with the empty-draw error `emptyChoice`
(the propagated failure of `random.choice` on an empty tuple), not an
explicit precondition rejection. -/
theorem c9_empty_vocab (m : TrigramModel) (hm : m.first_words = [])
    (R : Int) (r1 r2 : String) :
    generate_word (output_generator m R) r1 r2 = .error .emptyChoice := by
  have hrand : ∀ r : String, rand_word (output_generator m R) r = .error .emptyChoice := by
    intro r
    rw [rand_word, if_pos]
    show (output_generator m R).first_words.isEmpty = true
    rw [show (output_generator m R).first_words = m.first_words from rfl, hm]
    rfl
  have hsel : select_candidate (output_generator m R) r1 = .error .emptyChoice := by
    rw [select_candidate]
    by_cases hR : (output_generator m R).refresh_cnt ≤ 0
    · rw [if_pos hR, hrand r1]
    · rw [if_neg hR]
      exact hrand r1
  rw [generate_word, hsel]

/-- C9 witness: the amended behaviour at a concrete refresh limit and draws. -/
theorem c9_empty_vocab_witness :
    generate_word (output_generator initModel 3) "a" "b" = .error .emptyChoice :=
  c9_empty_vocab initModel rfl 3 "a" "b"

/-- Reducing `spec_trigram_rule` at a present unigram key. -/
theorem spec_trigram_rule_eq (d : Dict) (pp p r : String) {u : UnigramData}
    (hu : dictGet d pp = some u) :
    spec_trigram_rule d pp p r =
      match u.bigrams.find? (·.data = p) with
      | some bn =>
        match bn.child.head? with
        | some tn => (tn.data, false)
        | none => spec_bigram_rule d p r
      | none => spec_bigram_rule d p r := by
  rw [spec_trigram_rule, hu]

/-- Candidate selection refines the spec's rule chain whenever the window
words are keys of a non-empty model. -/
theorem select_candidate_spec (g : OutputGenerator) (r : String)
    (hne : g.first_words ≠ [])
    (hp : g.prev.all (isKey g.first_words) = true)
    (hpp : g.prev_prev.all (isKey g.first_words) = true)
    (hps : g.prev_prev.isSome = true → g.prev.isSome = true) :
    select_candidate g r =
      .ok ((spec_select g r).1,
        if (spec_select g r).2 = true then reset_refresh g else g) := by
  by_cases h0 : g.refresh_cnt ≤ 0
  · rw [select_candidate, if_pos h0, rand_word_of_ne hne, spec_select, if_pos h0]
    rfl
  · rw [select_candidate, if_neg h0, spec_select, if_neg h0]
    cases hppo : g.prev_prev with
    | none =>
      rw [show (none : Option String).isSome = false from rfl,
        if_neg Bool.false_ne_true]
      cases hpo : g.prev with
      | none =>
        rw [show (none : Option String).isSome = false from rfl,
          if_neg Bool.false_ne_true, rand_word_of_ne hne]
        rfl
      | some p =>
        rw [show (some p).isSome = true from rfl, if_pos rfl]
        exact best_bigram_spec r hpo hne (by rw [hpo] at hp; simpa using hp)
    | some pp =>
      rw [show (some pp).isSome = true from rfl, if_pos rfl]
      have hpsome : g.prev.isSome = true := hps (by rw [hppo]; rfl)
      obtain ⟨p, hpo⟩ := Option.isSome_iff_exists.1 hpsome
      have hkeyp : isKey g.first_words p = true := by
        rw [hpo] at hp
        simpa using hp
      have hkeypp : isKey g.first_words pp = true := by
        rw [hppo] at hpp
        simpa using hpp
      obtain ⟨u, hu⟩ := Option.isSome_iff_exists.1 (by rwa [isKey] at hkeypp)
      have hv : (match (some pp : Option String), g.prev with
          | some pp, some p => spec_trigram_rule g.first_words pp p r
          | _, some p => spec_bigram_rule g.first_words p r
          | _, none => ((r, true) : String × Bool)) =
          spec_trigram_rule g.first_words pp p r := by
        rw [hpo]
      rw [hv, spec_trigram_rule_eq g.first_words pp p r hu,
        best_trigram, hppo, dictIndex_some hu]
      show (match findBigram u.bigrams g.prev with
        | some bn =>
          match bn.child.head? with
          | some tn => Except.ok (tn.data, g)
          | none => best_bigram g r
        | none => best_bigram g r) = _
      rw [hpo, show findBigram u.bigrams (some p) = u.bigrams.find? (·.data = p) from rfl]
      cases hf : u.bigrams.find? (·.data = p) with
      | some bn =>
        show (match bn.child.head? with
          | some tn => Except.ok (tn.data, g)
          | none => best_bigram g r) =
          Except.ok ((match bn.child.head? with
              | some tn => (tn.data, false)
              | none => spec_bigram_rule g.first_words p r).1,
            if (match bn.child.head? with
                | some tn => (tn.data, false)
                | none => spec_bigram_rule g.first_words p r).2 = true then
              reset_refresh g else g)
        cases hh : bn.child.head? with
        | some tn => rfl
        | none => exact best_bigram_spec r hpo hne hkeyp
      | none => exact best_bigram_spec r hpo hne hkeyp

/-- C4: whenever the generator's window words are keys of the model (and the
model is non-empty), candidate selection never fails and returns exactly what
the spec's first-matching-rule chain (`spec_select`, modelled from the spec)
prescribes, resetting the refresh counter exactly when a random draw was
used; missing bigram or trigram data only moves selection down the chain. -/
theorem c4_selection_follows_spec (g : OutputGenerator) (r : String)
    (hne : g.first_words ≠ [])
    (hp : g.prev.all (isKey g.first_words) = true)
    (hpp : g.prev_prev.all (isKey g.first_words) = true)
    (hps : g.prev_prev.isSome = true → g.prev.isSome = true) :
    select_candidate g r =
      .ok ((spec_select g r).1,
        if (spec_select g r).2 = true then reset_refresh g else g) :=
  select_candidate_spec g r hne hp hpp hps

/-- C4 witness: a generator over a trained model; the selection equals the
spec rule chain's choice. -/
theorem c4_selection_witness :
    select_candidate (output_generator run_model 2) "a" =
      .ok ((spec_select (output_generator run_model 2) "a").1,
        if (spec_select (output_generator run_model 2) "a").2 = true then
          reset_refresh (output_generator run_model 2)
        else output_generator run_model 2) :=
  c4_selection_follows_spec (output_generator run_model 2) "a"
    (by decide) (by decide) (by decide) (by decide)

/-! ## Vocabulary closure (C10) -/

/-- Unfolding `bigramWords` on a cons. -/
theorem bigramWords_cons (n : BigramNode) (rest : List BigramNode) :
    bigramWords (n :: rest) = (n.data :: n.child.map (·.data)) ++ bigramWords rest := rfl

/-- Unfolding `dataWords` on a cons. -/
theorem dataWords_cons (p : String × UnigramData) (rest : Dict) :
    dataWords (p :: rest) = bigramWords p.2.bigrams ++ dataWords rest := rfl

/-- Membership in `dataWords`. -/
theorem mem_dataWords {d : Dict} {w : String} :
    w ∈ dataWords d ↔ ∃ p ∈ d, w ∈ bigramWords p.2.bigrams := by
  rw [dataWords, List.mem_flatten]
  constructor
  · rintro ⟨s, hs, hw⟩
    obtain ⟨p, hp, rfl⟩ := List.mem_map.1 hs
    exact ⟨p, hp, hw⟩
  · rintro ⟨p, hp, hw⟩
    exact ⟨bigramWords p.2.bigrams, List.mem_map.2 ⟨p, hp, rfl⟩, hw⟩

/-- Keys survive `modadd`. -/
theorem isKey_modadd (d : Dict) (x w : String) (f : UnigramData → UnigramData)
    (h : isKey d w = true) : isKey (modadd d x f) w = true := by
  rw [isKey, dictGet_modadd]
  by_cases hw : w = x
  · rw [if_pos hw]
    rfl
  · rw [if_neg hw]
    exact h

/-- `modadd` makes its word a key. -/
theorem isKey_modadd_self (d : Dict) (x : String) (f : UnigramData → UnigramData) :
    isKey (modadd d x f) x = true := by
  rw [isKey, dictGet_modadd, if_pos rfl]
  rfl

/-- The words stored by `_count_trigram`: only `w` is new. -/
theorem data_count_trigram {c : List TrigramNode} {w v : String}
    (h : v ∈ (count_trigram c w).map (·.data)) : v = w ∨ v ∈ c.map (·.data) := by
  rw [count_trigram] at h
  by_cases hany : c.any (·.data = w)
  · rw [if_pos hany, incFirstTrigram_data] at h
    exact Or.inr h
  · rw [if_neg hany, List.map_cons] at h
    exact List.mem_cons.1 h

/-- The words stored by `incFirstBigram`: only those added by the child
transform are new. -/
theorem bigramWords_incFirstBigram (fT : List TrigramNode → List TrigramNode)
    (S : List String)
    (hfT : ∀ c, ∀ v ∈ (fT c).map (·.data), v ∈ S ∨ v ∈ c.map (·.data)) :
    ∀ (l : List BigramNode) (p : String), ∀ v ∈ bigramWords (incFirstBigram fT l p),
      v ∈ S ∨ v ∈ bigramWords l
  | [], p, v, h => by
    rw [incFirstBigram] at h
    exact Or.inr h
  | n :: rest, p, v, h => by
    by_cases hn : n.data = p
    · rw [incFirstBigram, if_pos hn, bigramWords_cons] at h
      rw [bigramWords_cons]
      rcases List.mem_append.1 h with h1 | h1
      · rcases List.mem_cons.1 h1 with rfl | h2
        · exact Or.inr (List.mem_append_left _ (List.mem_cons_self _ _))
        · rcases hfT n.child v h2 with hS | hc
          · exact Or.inl hS
          · exact Or.inr (List.mem_append_left _ (List.mem_cons_of_mem _ hc))
      · exact Or.inr (List.mem_append_right _ h1)
    · rw [incFirstBigram, if_neg hn, bigramWords_cons] at h
      rw [bigramWords_cons]
      rcases List.mem_append.1 h with h1 | h1
      · exact Or.inr (List.mem_append_left _ h1)
      · rcases bigramWords_incFirstBigram fT S hfT rest p v h1 with hS | hr
        · exact Or.inl hS
        · exact Or.inr (List.mem_append_right _ hr)

/-- The words stored by `_count_bigram`: only `p` and those added by the
child transform are new. -/
theorem bigramWords_count_bigram (fT : List TrigramNode → List TrigramNode)
    (S : List String)
    (hfT : ∀ c, ∀ v ∈ (fT c).map (·.data), v ∈ S ∨ v ∈ c.map (·.data))
    (l : List BigramNode) (p : String) :
    ∀ v ∈ bigramWords (count_bigram_with l p fT), v = p ∨ v ∈ S ∨ v ∈ bigramWords l := by
  intro v h
  rw [count_bigram_with] at h
  by_cases hany : l.any (·.data = p)
  · rw [if_pos hany] at h
    rcases bigramWords_incFirstBigram fT S hfT l p v h with hS | hl
    · exact Or.inr (Or.inl hS)
    · exact Or.inr (Or.inr hl)
  · rw [if_neg hany, bigramWords_cons] at h
    rcases List.mem_append.1 h with h1 | h1
    · rcases List.mem_cons.1 h1 with rfl | h2
      · exact Or.inl rfl
      · rcases hfT [] v h2 with hS | hc
        · exact Or.inr (Or.inl hS)
        · exact absurd hc (by simp)
    · exact Or.inr (Or.inr h1)

/-- The words stored after `modadd`: only those added by the value transform
are new. -/
theorem dataWords_modadd (f : UnigramData → UnigramData) (S : List String)
    (hf : ∀ u, ∀ v ∈ bigramWords (f u).bigrams, v ∈ S ∨ v ∈ bigramWords u.bigrams) :
    ∀ (d : Dict) (x : String), ∀ v ∈ dataWords (modadd d x f), v ∈ S ∨ v ∈ dataWords d
  | [], x, v, h => by
    rw [modadd] at h
    rcases hf ⟨0, []⟩ v (by
      rw [dataWords_cons] at h
      rcases List.mem_append.1 h with h1 | h1
      · exact h1
      · exact absurd h1 (by simp [dataWords])) with hS | hc
    · exact Or.inl hS
    · exact absurd hc (by simp [bigramWords])
  | (k, u) :: rest, x, v, h => by
    rw [modadd] at h
    by_cases hk : k = x
    · rw [if_pos hk, dataWords_cons] at h
      rw [dataWords_cons]
      rcases List.mem_append.1 h with h1 | h1
      · rcases hf u v h1 with hS | hc
        · exact Or.inl hS
        · exact Or.inr (List.mem_append_left _ hc)
      · exact Or.inr (List.mem_append_right _ h1)
    · rw [if_neg hk, dataWords_cons] at h
      rw [dataWords_cons]
      rcases List.mem_append.1 h with h1 | h1
      · exact Or.inr (List.mem_append_left _ h1)
      · rcases dataWords_modadd f S hf rest x v h1 with hS | hr
        · exact Or.inl hS
        · exact Or.inr (List.mem_append_right _ hr)

/-- `consume_word` preserves the training invariant. -/
theorem train_inv_consume {m : TrigramModel} (h : train_inv m) (w : String) :
    train_inv (consume_word m w) := by
  intro v hv
  have hfw : (consume_word m w).first_words =
      modadd m.first_words m.prev_prev fun u =>
        ⟨u.cnt + 1, count_bigram_with u.bigrams m.prev (count_trigram · w)⟩ := rfl
  rw [hfw] at hv ⊢
  have hfT : ∀ c, ∀ v' ∈ (count_trigram c w).map (·.data),
      v' ∈ [w] ∨ v' ∈ c.map (·.data) := by
    intro c v' hv'
    rcases data_count_trigram hv' with rfl | hc
    · exact Or.inl (List.mem_cons_self _ _)
    · exact Or.inr hc
  have hf : ∀ u : UnigramData, ∀ v' ∈ bigramWords
      (count_bigram_with u.bigrams m.prev (count_trigram · w)),
      v' ∈ [m.prev, w] ∨ v' ∈ bigramWords u.bigrams := by
    intro u v' hv'
    rcases bigramWords_count_bigram (count_trigram · w) [w] hfT u.bigrams m.prev v' hv' with
      rfl | hS | hl
    · exact Or.inl (List.mem_cons_self _ _)
    · exact Or.inl (List.mem_cons_of_mem _ hS)
    · exact Or.inr hl
  rcases dataWords_modadd _ [m.prev, w] hf m.first_words m.prev_prev v hv with h1 | h1
  · rcases List.mem_cons.1 h1 with rfl | h2
    · exact Or.inr (Or.inl rfl)
    · rcases List.mem_cons.1 h2 with rfl | h3
      · exact Or.inr (Or.inr rfl)
      · exact absurd h3 (by simp)
  · rcases h v h1 with hk | rfl | rfl
    · exact Or.inl (isKey_modadd _ _ _ _ hk)
    · exact Or.inl (isKey_modadd_self _ _ _)
    · exact Or.inr (Or.inl rfl)

/-- `end_input` turns the training invariant into full closure. -/
theorem vocab_closed_end {m : TrigramModel} (h : train_inv m) :
    vocab_closed (end_input m).first_words = true := by
  rw [vocab_closed, List.all_eq_true]
  intro v hv
  have hfw : (end_input m).first_words =
      modadd (modadd m.first_words m.prev_prev fun u =>
        ⟨u.cnt + 1, count_bigram_with u.bigrams m.prev id⟩) m.prev
        (fun u => ⟨u.cnt + 1, u.bigrams⟩) := rfl
  rw [hfw] at hv ⊢
  have hf2 : ∀ u : UnigramData, ∀ v' ∈ bigramWords u.bigrams,
      v' ∈ ([] : List String) ∨ v' ∈ bigramWords u.bigrams := fun u v' hv' => Or.inr hv'
  have hf1 : ∀ u : UnigramData, ∀ v' ∈ bigramWords
      (count_bigram_with u.bigrams m.prev id),
      v' ∈ [m.prev] ∨ v' ∈ bigramWords u.bigrams := by
    intro u v' hv'
    rcases bigramWords_count_bigram id []
      (fun c v'' h'' => Or.inr h'') u.bigrams m.prev v' hv' with rfl | hS | hl
    · exact Or.inl (List.mem_cons_self _ _)
    · exact absurd hS (by simp)
    · exact Or.inr hl
  rcases dataWords_modadd (fun u => ⟨u.cnt + 1, u.bigrams⟩) [] hf2 _ m.prev v hv with h1 | h1
  · exact absurd h1 (by simp)
  · rcases dataWords_modadd (fun u => ⟨u.cnt + 1, count_bigram_with u.bigrams m.prev id⟩)
      [m.prev] hf1 m.first_words m.prev_prev v h1 with h2 | h2
    · rcases List.mem_cons.1 h2 with rfl | h3
      · exact isKey_modadd_self _ _ _
      · exact absurd h3 (by simp)
    · rcases h v h2 with hk | rfl | rfl
      · exact isKey_modadd _ _ _ _ (isKey_modadd _ _ _ _ hk)
      · exact isKey_modadd _ _ _ _ (isKey_modadd_self _ _ _)
      · exact isKey_modadd_self _ _ _

/-- `start_input` on a closed model establishes the training invariant. -/
theorem train_inv_start {m : TrigramModel} (h : vocab_closed m.first_words = true)
    (a b : String) : train_inv (start_input m a b) := by
  intro v hv
  exact Or.inl (List.all_eq_true.1 h v hv)

/-- A complete training cycle preserves closure. -/
theorem vocab_closed_cycle {m : TrigramModel} (h : vocab_closed m.first_words = true)
    (c : Cycle) : vocab_closed (run_cycle m c).first_words = true := by
  rw [run_cycle]
  apply vocab_closed_end
  have hfold : ∀ (ws : List String) (m' : TrigramModel), train_inv m' →
      train_inv (ws.foldl consume_word m') := by
    intro ws
    induction ws with
    | nil => exact fun m' hm => hm
    | cons w ws ih => exact fun m' hm => ih _ (train_inv_consume hm w)
  exact hfold c.rest _ (train_inv_start h c.first c.second)

/-- Any sequence of complete training cycles yields a closed vocabulary. -/
theorem vocab_closed_run_cycles (cs : List Cycle) :
    vocab_closed (run_cycles cs initModel).first_words = true := by
  rw [run_cycles]
  have hfold : ∀ (cs' : List Cycle) (m : TrigramModel),
      vocab_closed m.first_words = true →
      vocab_closed (cs'.foldl run_cycle m).first_words = true := by
    intro cs'
    induction cs' with
    | nil => exact fun m hm => hm
    | cons c cs'' ih => exact fun m hm => ih _ (vocab_closed_cycle hm c)
  exact hfold cs initModel rfl

/-- A successful `dictGet` witnesses dict membership. -/
theorem dictGet_mem : ∀ {d : Dict} {k : String} {u : UnigramData},
    dictGet d k = some u → (k, u) ∈ d
  | [], _, _, h => by exact absurd h (by simp [dictGet])
  | (k0, v) :: rest, k, u, h => by
    rw [dictGet] at h
    by_cases hk : k0 = k
    · rw [if_pos hk] at h
      rw [← hk, Option.some.inj h]
      exact List.mem_cons_self _ _
    · rw [if_neg hk] at h
      exact List.mem_cons_of_mem _ (dictGet_mem h)

/-- A bigram node's word belongs to its container's word list. -/
theorem data_mem_bigramWords {l : List BigramNode} {b : BigramNode} (hb : b ∈ l) :
    b.data ∈ bigramWords l := by
  rw [bigramWords, List.mem_flatten]
  exact ⟨b.data :: b.child.map (·.data), List.mem_map.2 ⟨b, hb, rfl⟩,
    List.mem_cons_self _ _⟩

/-- A trigram node's word belongs to the enclosing bigram container's word
list. -/
theorem childdata_mem_bigramWords {l : List BigramNode} {b : BigramNode} (hb : b ∈ l)
    {t : TrigramNode} (ht : t ∈ b.child) : t.data ∈ bigramWords l := by
  rw [bigramWords, List.mem_flatten]
  exact ⟨b.data :: b.child.map (·.data), List.mem_map.2 ⟨b, hb, rfl⟩,
    List.mem_cons_of_mem _ (List.mem_map.2 ⟨t, ht, rfl⟩)⟩

/-- On a closed model, every word the spec's rule chain can produce is a key
(a container head is a stored data word, and a draw is a key by assumption). -/
theorem spec_select_isKey (g : OutputGenerator) (r : String)
    (hclosed : vocab_closed g.first_words = true)
    (hr : isKey g.first_words r = true) :
    isKey g.first_words (spec_select g r).1 = true := by
  have hbr : ∀ p : String,
      isKey g.first_words (spec_bigram_rule g.first_words p r).1 = true := by
    intro p
    rw [spec_bigram_rule]
    cases hd : dictGet g.first_words p with
    | none => exact hr
    | some u =>
      show isKey g.first_words ((match u.bigrams.head? with
        | some n => ((n.data, false) : String × Bool)
        | none => (r, true)).1) = true
      cases hh : u.bigrams.head? with
      | some n =>
        exact List.all_eq_true.1 hclosed n.data
          (mem_dataWords.2 ⟨(p, u), dictGet_mem hd,
            data_mem_bigramWords (List.mem_of_mem_head? hh)⟩)
      | none => exact hr
  rw [spec_select]
  by_cases h0 : g.refresh_cnt ≤ 0
  · rw [if_pos h0]
    exact hr
  · rw [if_neg h0]
    cases hppo : g.prev_prev with
    | none =>
      cases hpo : g.prev with
      | none => exact hr
      | some p => exact hbr p
    | some pp =>
      cases hpo : g.prev with
      | none => exact hr
      | some p =>
        show isKey g.first_words (spec_trigram_rule g.first_words pp p r).1 = true
        cases hd : dictGet g.first_words pp with
        | none =>
          rw [spec_trigram_rule, hd]
          exact hbr p
        | some u =>
          rw [spec_trigram_rule_eq g.first_words pp p r hd]
          cases hf : u.bigrams.find? (·.data = p) with
          | none => exact hbr p
          | some bn =>
            show isKey g.first_words ((match bn.child.head? with
              | some tn => ((tn.data, false) : String × Bool)
              | none => spec_bigram_rule g.first_words p r).1) = true
            cases hh : bn.child.head? with
            | none => exact hbr p
            | some tn =>
              exact List.all_eq_true.1 hclosed tn.data
                (mem_dataWords.2 ⟨(pp, u), dictGet_mem hd,
                  childdata_mem_bigramWords (List.mem_of_find?_eq_some hf)
                    (List.mem_of_mem_head? hh)⟩)

/-- The window invariant after the final shift of `generate_word`. -/
theorem window_ok_shift {d : Dict} {g1 : OutputGenerator} {w : String}
    (hw : isKey d w = true) (hp : g1.prev.all (isKey d) = true) :
    window_ok d (shift_window g1 w) = true := by
  rw [window_ok]
  show ((some w).all (isKey d) && g1.prev.all (isKey d) &&
    ((some w).isSome || !g1.prev.isSome)) = true
  simp [hw, hp]

/-- One safe generation step on a closed, non-empty model with a key-closed
window: no error is raised, the output word is a key, and the invariants are
preserved. -/
theorem generate_word_safe (g : OutputGenerator) (r1 r2 : String)
    (hclosed : vocab_closed g.first_words = true) (hne : g.first_words ≠ [])
    (hwin : window_ok g.first_words g = true)
    (hr1 : isKey g.first_words r1 = true) (hr2 : isKey g.first_words r2 = true) :
    ∃ w g', generate_word g r1 r2 = .ok (w, g') ∧ isKey g.first_words w = true ∧
      g'.first_words = g.first_words ∧ window_ok g.first_words g' = true := by
  have hw := hwin
  rw [window_ok, Bool.and_eq_true, Bool.and_eq_true] at hw
  obtain ⟨⟨hp, hpp⟩, h3⟩ := hw
  have hps : g.prev_prev.isSome = true → g.prev.isSome = true := by
    intro hs
    rw [Bool.or_eq_true] at h3
    rcases h3 with h | h
    · exact h
    · rw [Bool.not_eq_true'] at h
      rw [hs] at h
      exact absurd h (by simp)
  have hsel := select_candidate_spec g r1 hne hp hpp hps
  have hkey : isKey g.first_words (spec_select g r1).1 = true :=
    spec_select_isKey g r1 hclosed hr1
  cases hv2 : (spec_select g r1).2 with
  | true =>
    rw [hv2, if_pos rfl] at hsel
    cases hcy : has_cycle (reset_refresh g) (spec_select g r1).1 with
    | false =>
      refine ⟨(spec_select g r1).1, shift_window (reset_refresh g) (spec_select g r1).1,
        generate_word_no_cycle r2 hsel hcy, hkey, rfl, ?_⟩
      exact window_ok_shift hkey hp
    | true =>
      refine ⟨r2, shift_window (reset_refresh (reset_refresh g)) r2,
        generate_word_cycle r2 hsel hcy hne, hr2, rfl, ?_⟩
      exact window_ok_shift hr2 hp
  | false =>
    rw [hv2, if_neg (by simp)] at hsel
    cases hcy : has_cycle g (spec_select g r1).1 with
    | false =>
      refine ⟨(spec_select g r1).1, shift_window g (spec_select g r1).1,
        generate_word_no_cycle r2 hsel hcy, hkey, rfl, ?_⟩
      exact window_ok_shift hkey hp
    | true =>
      refine ⟨r2, shift_window (reset_refresh g) r2,
        generate_word_cycle r2 hsel hcy hne, hr2, rfl, ?_⟩
      exact window_ok_shift hr2 hp

/-- C10: after any sequence of complete training cycles, every word stored as
the data of a bigram or trigram entry is a key of the top-level mapping; on
such a closed, non-empty model, with a key-closed window and draws taken from
the keys, `generate_word` never fails, every generated word is a key of the
vocabulary, and the window stays key-closed — so the dictionary lookups of
`_best_bigram` and `_best_trigram` never fail on words previously returned. -/
theorem c10_vocab_closure_and_safety :
    (∀ cs : List Cycle, vocab_closed (run_cycles cs initModel).first_words = true) ∧
    (∀ (g : OutputGenerator) (r1 r2 : String),
      vocab_closed g.first_words = true → g.first_words ≠ [] →
      window_ok g.first_words g = true →
      isKey g.first_words r1 = true → isKey g.first_words r2 = true →
      ∃ w g', generate_word g r1 r2 = .ok (w, g') ∧ isKey g.first_words w = true ∧
        g'.first_words = g.first_words ∧ window_ok g.first_words g' = true) :=
  ⟨vocab_closed_run_cycles, generate_word_safe⟩

/-- C10 witness: a safe step on a concrete trained model. -/
theorem c10_vocab_witness :
    ∃ w g', generate_word (output_generator run_model 2) "a" "b" = .ok (w, g') ∧
      isKey (output_generator run_model 2).first_words w = true ∧
      g'.first_words = (output_generator run_model 2).first_words ∧
      window_ok (output_generator run_model 2).first_words g' = true :=
  c10_vocab_closure_and_safety.2 (output_generator run_model 2) "a" "b"
    (by decide) (by decide) (by decide) (by decide) (by decide)

/-! ## Refresh-counter dynamics (C5) -/

/-- A forced step (counter at or below zero) ends with the counter at
`refresh_limit - 1`: the draw resets it and the final decrement follows
immediately. -/
theorem generate_word_forced {g : OutputGenerator} {r1 r2 w : String}
    {g' : OutputGenerator}
    (h : generate_word g r1 r2 = .ok (w, g')) (h0 : g.refresh_cnt ≤ 0) :
    g'.refresh_cnt = g.refresh_limit - 1 ∧ g'.refresh_limit = g.refresh_limit := by
  by_cases hfw : g.first_words = []
  · have hsel : select_candidate g r1 = .error .emptyChoice := by
      rw [select_candidate, if_pos h0, rand_word, if_pos (by simp [hfw])]
    rw [generate_word, hsel] at h
    exact absurd h (by simp)
  · have hsel : select_candidate g r1 = .ok (r1, reset_refresh g) := by
      rw [select_candidate, if_pos h0, rand_word_of_ne hfw]
    cases hc : has_cycle (reset_refresh g) r1 with
    | false =>
      rw [generate_word_no_cycle r2 hsel hc] at h
      have hg : shift_window (reset_refresh g) r1 = g' :=
        congrArg Prod.snd (Except.ok.inj h)
      rw [← hg]
      exact ⟨rfl, rfl⟩
    | true =>
      rw [generate_word_cycle r2 hsel hc hfw] at h
      have hg : shift_window (reset_refresh (reset_refresh g)) r2 = g' :=
        congrArg Prod.snd (Except.ok.inj h)
      rw [← hg]
      exact ⟨rfl, rfl⟩

/-- A greedy step (selection succeeds without touching the state, no cycle)
just decrements the counter. -/
theorem generate_word_greedy {g : OutputGenerator} {r1 r2 w wg : String}
    {g' : OutputGenerator}
    (h : generate_word g r1 r2 = .ok (w, g'))
    (hsel : select_candidate g r1 = .ok (wg, g))
    (hcyc : has_cycle g wg = false) :
    g'.refresh_cnt = g.refresh_cnt - 1 ∧ g'.refresh_limit = g.refresh_limit := by
  rw [generate_word_no_cycle r2 hsel hcyc] at h
  have hg : shift_window g wg = g' := congrArg Prod.snd (Except.ok.inj h)
  rw [← hg]
  exact ⟨rfl, rfl⟩

/-- The very first step of a fresh generator (positive limit): the empty
window forces the final random branch of the selection chain, which resets
to the limit before the decrement. -/
theorem generate_word_fresh {m : TrigramModel} {R : Int} (hR : 1 ≤ R)
    {r1 r2 w : String} {g' : OutputGenerator}
    (h : generate_word (output_generator m R) r1 r2 = .ok (w, g')) :
    g'.refresh_cnt = R - 1 ∧ g'.refresh_limit = R := by
  by_cases hfw : m.first_words = []
  · have hsel : select_candidate (output_generator m R) r1 = .error .emptyChoice := by
      rw [select_candidate,
        if_neg (show ¬(output_generator m R).refresh_cnt ≤ 0 from by
          show ¬R ≤ 0
          omega)]
      exact (by rw [rand_word, if_pos (by simp [output_generator, hfw])] :
        rand_word (output_generator m R) r1 = .error .emptyChoice)
    rw [generate_word, hsel] at h
    exact absurd h (by simp)
  · have hne : (output_generator m R).first_words ≠ [] := hfw
    have hsel : select_candidate (output_generator m R) r1 =
        .ok (r1, reset_refresh (output_generator m R)) := by
      rw [select_candidate,
        if_neg (show ¬(output_generator m R).refresh_cnt ≤ 0 from by
          show ¬R ≤ 0
          omega)]
      exact rand_word_of_ne hne r1
    have hcyc : has_cycle (reset_refresh (output_generator m R)) r1 = false := rfl
    rw [generate_word_no_cycle r2 hsel hcyc] at h
    have hg : shift_window (reset_refresh (output_generator m R)) r1 = g' :=
      congrArg Prod.snd (Except.ok.inj h)
    rw [← hg]
    exact ⟨rfl, rfl⟩

/-- The predecessor position is at the end of its block exactly when `t` is a
multiple of the block length. -/
theorem mod_pred_iff {R t : Nat} (hR : 1 ≤ R) (ht : 1 ≤ t) :
    (t - 1) % R = R - 1 ↔ t % R = 0 := by
  constructor
  · intro h
    obtain ⟨q, hq⟩ : ∃ q, t - 1 = R * q + (R - 1) := by
      refine ⟨(t - 1) / R, ?_⟩
      have hd := Nat.div_add_mod (t - 1) R
      set a := R * ((t - 1) / R) with ha
      omega
    have hteq : t = R * (q + 1) := by
      rw [Nat.mul_add, Nat.mul_one]
      omega
    rw [hteq]
    exact Nat.mul_mod_right R (q + 1)
  · intro h
    obtain ⟨q, hq⟩ : ∃ q, t = R * q := by
      refine ⟨t / R, ?_⟩
      have hd := Nat.div_add_mod t R
      set a := R * (t / R) with ha
      omega
    have hq1 : 1 ≤ q := by
      rcases Nat.eq_zero_or_pos q with rfl | h1
      · rw [Nat.mul_zero] at hq
        omega
      · exact h1
    have hrep : t - 1 = (R - 1) + (q - 1) * R := by
      have h2 : (q - 1) * R = q * R - R := by
        rw [Nat.sub_mul, Nat.one_mul]
      have h3 : q * R = t := by
        rw [Nat.mul_comm]
        omega
      have h4 : R ≤ q * R := Nat.le_mul_of_pos_left R (by omega)
      omega
    rw [hrep, Nat.add_mul_mod_self_right, Nat.mod_eq_of_lt (by omega)]

/-- Inside a block, stepping forward advances the position by one. -/
theorem mod_succ_of_lt {R t : Nat} (ht : 1 ≤ t) (h : (t - 1) % R + 1 < R) :
    t % R = (t - 1) % R + 1 := by
  have hd := Nat.div_add_mod (t - 1) R
  set a := R * ((t - 1) / R) with ha
  have h1 : t = ((t - 1) % R + 1) + ((t - 1) / R) * R := by
    rw [Nat.mul_comm] at ha
    omega
  conv_lhs => rw [h1]
  rw [Nat.add_mul_mod_self_right, Nat.mod_eq_of_lt h]

/-- C5: refresh periodicity, corrected. For a run of `generate_word` from a
fresh generator with positive `refresh_limit` `R`, in which every step
succeeds and every step after the first that still has a positive counter
selects greedily (state unchanged, no cycle suppression), the pre-state
counter of step `t + 1` is exhausted (forcing a random draw) exactly when
`t` is a positive multiple of `R`: forced draws occur on steps
`R+1, 2R+1, 3R+1, …`, with period `R`, not on `R+1, 2R+2, 3R+3, …`. -/
theorem c5_refresh_periodicity (R n : Nat) (hR : 1 ≤ R) (fw : Dict)
    (gs : List OutputGenerator) (ws rs1 rs2 : List String)
    (h0 : gs.getD 0 default = output_generator ⟨fw, "", ""⟩ (R : Int))
    (hstep : ∀ t, t < n → generate_word (gs.getD t default) (rs1.getD t "")
      (rs2.getD t "") = .ok (ws.getD t "", gs.getD (t + 1) default))
    (hgreedy : ∀ t, t < n →
      (1 ≤ t ∧ 0 < (gs.getD t default).refresh_cnt) →
      select_candidate (gs.getD t default) (rs1.getD t "") =
        .ok (ws.getD t "", gs.getD t default) ∧
      has_cycle (gs.getD t default) (ws.getD t "") = false) :
    ∀ t, t < n + 1 →
      ((gs.getD t default).refresh_cnt ≤ 0 ↔ t ≠ 0 ∧ t % R = 0) := by
  have hcnt : ∀ t, t < n + 1 →
      (gs.getD t default).refresh_cnt =
        (if t = 0 then (R : Int) else (R : Int) - 1 - (((t - 1) % R : Nat) : Int)) ∧
      (gs.getD t default).refresh_limit = (R : Int) := by
    intro t
    induction t with
    | zero =>
      intro _
      rw [h0]
      exact ⟨rfl, rfl⟩
    | succ t ih =>
      intro ht
      have ht' : t < n := by omega
      obtain ⟨hc, hl⟩ := ih (by omega)
      have hstep_t := hstep t ht'
      by_cases hz : t = 0
      · subst hz
        rw [h0] at hstep_t
        obtain ⟨hc', hl'⟩ := generate_word_fresh (by exact_mod_cast hR) hstep_t
        refine ⟨?_, hl'⟩
        rw [hc', if_neg (by omega : ¬(0 + 1 = 0))]
        simp
      · by_cases hforced : (gs.getD t default).refresh_cnt ≤ 0
        · obtain ⟨hc', hl'⟩ := generate_word_forced hstep_t hforced
          have hmd : (t - 1) % R < R := Nat.mod_lt _ (by omega)
          have hmdeq : (t - 1) % R = R - 1 := by
            rw [hc, if_neg hz] at hforced
            omega
          have htmod : t % R = 0 := (mod_pred_iff hR (by omega)).1 hmdeq
          refine ⟨?_, by rw [hl', hl]⟩
          rw [hc', hl, if_neg (by omega : ¬(t + 1 = 0))]
          simp only [Nat.add_sub_cancel]
          rw [htmod]
          simp
        · have hpos : 0 < (gs.getD t default).refresh_cnt := by omega
          obtain ⟨hsel_t, hcyc_t⟩ := hgreedy t ht' ⟨by omega, hpos⟩
          obtain ⟨hc', hl'⟩ := generate_word_greedy hstep_t hsel_t hcyc_t
          have hmd : (t - 1) % R < R := Nat.mod_lt _ (by omega)
          have hlt : (t - 1) % R + 1 < R := by
            rw [hc, if_neg hz] at hforced
            omega
          have htmod : t % R = (t - 1) % R + 1 := mod_succ_of_lt (by omega) hlt
          refine ⟨?_, by rw [hl', hl]⟩
          rw [hc', hc, if_neg hz, if_neg (by omega : ¬(t + 1 = 0))]
          simp only [Nat.add_sub_cancel]
          rw [htmod]
          push_cast
          ring
  intro t ht
  obtain ⟨hc, -⟩ := hcnt t ht
  rw [hc]
  by_cases hz : t = 0
  · subst hz
    rw [if_pos rfl]
    constructor
    · intro hle
      exact absurd hle (by omega)
    · rintro ⟨h1, -⟩
      exact absurd rfl h1
  · rw [if_neg hz]
    have hmd : (t - 1) % R < R := Nat.mod_lt _ (by omega)
    constructor
    · intro hle
      exact ⟨hz, (mod_pred_iff hR (by omega)).1 (by omega)⟩
    · rintro ⟨-, hm⟩
      have hme : (t - 1) % R = R - 1 := (mod_pred_iff hR (by omega)).2 hm
      omega

/-- C5 counterexample: with `refresh_limit = R = 2` the claim predicts forced
random draws exactly on steps `R+1, 2R+2, 3R+3, … = 3, 6, 9, …`. In the
five-step run `run_states` every step succeeds (six pre-states), every step
after the first whose counter is still positive selects greedily with no
cycle suppression, yet the pre-state of step 5 already has an exhausted
counter: the second forced draw happens on step 5 = 2R+1, not step 6 = 2R+2. -/
theorem c5_counterexample :
    run_states.getD 0 default = output_generator run_model 2 ∧
    run_states.length = 6 ∧
    (∀ t, t < 5 →
      (1 ≤ t ∧ 0 < (run_states.getD t default).refresh_cnt) →
      select_candidate (run_states.getD t default)
          (["a", "a", "d", "a", "e"].getD t "") =
        .ok (["a", "b", "d", "e", "e"].getD t "", run_states.getD t default) ∧
      has_cycle (run_states.getD t default)
        (["a", "b", "d", "e", "e"].getD t "") = false) ∧
    (run_states.getD 2 default).refresh_cnt ≤ 0 ∧
    (run_states.getD 4 default).refresh_cnt ≤ 0 ∧
    ¬(4 + 1) % (2 + 1) = 0 := by decide

/-- Witness for C5: the corrected periodicity instantiated on the concrete
run `run_states` with `R = 2`, at steps 5 (forced: 4 is a positive multiple
of 2) and 4 (not forced: 3 is odd). -/
theorem c5_refresh_periodicity_witness :
    (((run_states.getD 4 default).refresh_cnt ≤ 0) ↔ (4 ≠ 0 ∧ 4 % 2 = 0)) ∧
    (((run_states.getD 3 default).refresh_cnt ≤ 0) ↔ (3 ≠ 0 ∧ 3 % 2 = 0)) :=
  ⟨c5_refresh_periodicity 2 5 (by decide) run_model.first_words run_states
      ["a", "b", "d", "e", "e"] ["a", "a", "d", "a", "e"] ["a", "a", "d", "a", "e"]
      (by decide) (by decide) (by decide) 4 (by decide),
    c5_refresh_periodicity 2 5 (by decide) run_model.first_words run_states
      ["a", "b", "d", "e", "e"] ["a", "a", "d", "a", "e"] ["a", "a", "d", "a", "e"]
      (by decide) (by decide) (by decide) 3 (by decide)⟩

end Markov
